import Mathlib

/-!
Verification of the minefield engine of iced-minesweep-rs.

The definitions below are a shallow embedding of the Rust module
src/minefield.rs: the grid is a vector of columns (indexed by x) of
spots (indexed by y), machine integers (u16 coordinates, u32 counts)
become Nat, and the mutating methods become functions returning the
updated Minefield together with their result value.  The flood-fill
worklist loop of Minefield::step is embedded with an explicit fuel
parameter; the step function supplies fuel width*height + 1, and the
termination theorems show this fuel always suffices on well-formed
fields, so the embedding computes the same fixpoint as the Rust loop.
-/

set_option maxHeartbeats 1000000

/-- Type of spot in a minefield: a mine, or empty with the count of
neighboring mines. -/
inductive SpotKind where
  | Mine : SpotKind
  | Empty : Nat → SpotKind
deriving DecidableEq

/-- State of a spot in a minefield. -/
inductive SpotState where
  | Hidden : SpotState
  | Revealed : SpotState
  | Flagged : SpotState
  | Exploded : SpotState
deriving DecidableEq

/-- A spot of the minefield: its kind and its visibility state. -/
structure Spot where
  kind : SpotKind
  state : SpotState
deriving DecidableEq

instance : Inhabited Spot := ⟨⟨SpotKind.Empty 0, SpotState.Hidden⟩⟩

/-- The result of stepping on a spot. -/
inductive StepResult where
  | Phew : StepResult
  | Boom : StepResult
  | Invalid : StepResult
deriving DecidableEq

/-- The result of toggling a flag. -/
inductive FlagToggleResult where
  | Removed : FlagToggleResult
  | Added : FlagToggleResult
  | None : FlagToggleResult
deriving DecidableEq

/-- The minefield: a grid of spots (outer index x, inner index y),
the number of mines, and the grid dimensions. -/
structure Minefield where
  field : List (List Spot)
  mines : Nat
  width : Nat
  height : Nat
deriving DecidableEq

/-- Read the spot at (x, y), defaulting outside the backing lists. -/
def getSpot (mf : Minefield) (x y : Nat) : Spot :=
  ((mf.field.getD x []).getD y default)

/-- Replace the spot at (x, y) by f applied to it (no-op outside the
backing lists, mirroring that the Rust code never indexes out of range). -/
def modifySpot (mf : Minefield) (x y : Nat) (f : Spot → Spot) : Minefield :=
  { mf with field := mf.field.set x ((mf.field.getD x []).set y (f (getSpot mf x y))) }

/-- Set the state of the spot at (x, y). -/
def setSpotState (mf : Minefield) (x y : Nat) (st : SpotState) : Minefield :=
  modifySpot mf x y (fun s => { s with state := st })

/-- Create an empty minefield grid with all spots hidden, enforcing a
minimum dimension of 1 (Minefield::new). -/
def Minefield.new (width height : Nat) : Minefield :=
  let width := if width = 0 then 1 else width
  let height := if height = 0 then 1 else height
  { field := List.replicate width (List.replicate height default)
    mines := 0
    width := width
    height := height }

/-- The neighbor coordinates within one unit of (x, y), clipped to the
grid, excluding (x, y) itself (Minefield::neighbors_coords).  The
bounds 65535 mirror the u16::MAX clamp of the source. -/
def neighborsList (w h x y : Nat) : List (Nat × Nat) :=
  let min_x := if 0 < x then x - 1 else x
  let max_x := if x < 65535 then x + 1 else x
  let min_y := if 0 < y then y - 1 else y
  let max_y := if y < 65535 then y + 1 else y
  ((List.range' min_x (max_x + 1 - min_x)).flatMap (fun i =>
      (List.range' min_y (max_y + 1 - min_y)).map (fun j => (i, j)))).filter
    (fun p => decide (p.1 < w) && decide (p.2 < h) &&
      ! (decide (p.1 = x) && decide (p.2 = y)))

/-- Iterator over the neighbor coordinates of (x, y). -/
def Minefield.neighbors_coords (mf : Minefield) (x y : Nat) : List (Nat × Nat) :=
  neighborsList mf.width mf.height x y

/-- Increment the neighboring-mine count of an empty spot; a mine spot
is left alone (the body of the neighbor-update loop of
Minefield::place_mine). -/
def bumpSpot (s : Spot) : Spot :=
  match s.kind with
  | SpotKind.Empty n => { s with kind := SpotKind.Empty (n + 1) }
  | SpotKind.Mine => s

/-- Increment the neighboring-mine count of every spot in the list
(the neighbor-update loop of Minefield::place_mine). -/
def bumpNeighbors (mf : Minefield) : List (Nat × Nat) → Minefield
  | [] => mf
  | p :: rest => bumpNeighbors (modifySpot mf p.1 p.2 bumpSpot) rest

/-- Place a mine at the given coordinates and update the neighbor
counts; a spot already holding a mine is left alone (Minefield::place_mine). -/
def Minefield.place_mine (mf : Minefield) (x y : Nat) : Minefield :=
  match (getSpot mf x y).kind with
  | SpotKind.Empty _ =>
    bumpNeighbors (modifySpot mf x y (fun s => { s with kind := SpotKind.Mine }))
      (mf.neighbors_coords x y)
  | SpotKind.Mine => mf

/-- Remove the element at index i by swapping in the last element and
popping it (Vec::swap_remove): returns the removed value and the rest. -/
def swapRemove (l : List Nat) (i : Nat) : Nat × List Nat :=
  (l.getD i 0, (l.set i (l.getLast?.getD 0)).dropLast)

/-- One iteration of the mine-placement loop of Minefield::with_mines:
draw a random index into the remaining-spots list, swap-remove it, and
place a mine at the corresponding coordinates.  rng i n models the
i-th call rng.gen_range(0..n). -/
def minesIter (rng : Nat → Nat → Nat) (w : Nat) (acc : Minefield × List Nat) (i : Nat) :
    Minefield × List Nat :=
  let index_rm := rng i acc.2.length
  let r := swapRemove acc.2 index_rm
  (acc.1.place_mine (r.1 % w) (r.1 / w), r.2)

/-- Build a minefield with the given number of mines randomly placed
(Minefield::with_mines), the random generator supplied explicitly. -/
def Minefield.with_mines (mf : Minefield) (mines : Nat) (rng : Nat → Nat → Nat) : Minefield :=
  let spot_count := mf.width * mf.height
  let mines := if mines ≤ spot_count then mines else spot_count
  let mf := { mf with mines := mines }
  ((List.range mines).foldl (minesIter rng mf.width) (mf, List.range spot_count)).1

/-- Get the spot at the given coordinates, none when out of bounds
(Minefield::spot). -/
def Minefield.spot (mf : Minefield) (x y : Nat) : Option Spot :=
  if x < mf.width ∧ y < mf.height then some (getSpot mf x y) else none

/-- The body of the flood-reveal worklist loop of Minefield::step,
processing the neighbor list of one popped cell: every hidden empty
neighbor is revealed, and those with zero count are pushed onto the
worklist (st, head = top of stack). -/
def floodNb (mf : Minefield) : List (Nat × Nat) → List (Nat × Nat) → Minefield × List (Nat × Nat)
  | [], st => (mf, st)
  | p :: rest, st =>
    let s := getSpot mf p.1 p.2
    if s.state = SpotState.Hidden then
      match s.kind with
      | SpotKind.Empty n =>
        let mf' := setSpotState mf p.1 p.2 SpotState.Revealed
        if n = 0 then floodNb mf' rest (p :: st) else floodNb mf' rest st
      | SpotKind.Mine => floodNb mf rest st
    else floodNb mf rest st

/-- The flood-reveal worklist loop of Minefield::step, with explicit
fuel; returns the final field and whatever worklist remains when the
fuel runs out (empty whenever the fuel is sufficient). -/
def floodLoop : Nat → Minefield → List (Nat × Nat) → Minefield × List (Nat × Nat)
  | 0, mf, st => (mf, st)
  | _ + 1, mf, [] => (mf, [])
  | fuel + 1, mf, p :: rest =>
    let r := floodNb mf (mf.neighbors_coords p.1 p.2) rest
    floodLoop fuel r.1 r.2

/-- Step on a spot of the field (Minefield::step): a mine explodes, an
empty spot is revealed, and a zero-count empty spot starts a flood
reveal; out of bounds is Invalid. -/
def Minefield.step (mf : Minefield) (x y : Nat) : Minefield × StepResult :=
  match mf.spot x y with
  | none => (mf, StepResult.Invalid)
  | some s =>
    match s.kind with
    | SpotKind.Mine => (setSpotState mf x y SpotState.Exploded, StepResult.Boom)
    | SpotKind.Empty n =>
      let mf1 := setSpotState mf x y SpotState.Revealed
      if n = 0 then
        ((floodLoop (mf1.width * mf1.height + 1) mf1 [(x, y)]).1, StepResult.Phew)
      else (mf1, StepResult.Phew)

/-- The neighbor loop of Minefield::auto_step: step on every currently
hidden neighbor in iteration order, returning the first non-Phew step
result immediately. -/
def autoStepLoop (mf : Minefield) : List (Nat × Nat) → Minefield × StepResult
  | [] => (mf, StepResult.Phew)
  | p :: rest =>
    if (getSpot mf p.1 p.2).state = SpotState.Hidden then
      let r := mf.step p.1 p.2
      if r.2 ≠ StepResult.Phew then r else autoStepLoop r.1 rest
    else autoStepLoop mf rest

/-- The number of flagged neighbors of (x, y) (the placed_flags count
of Minefield::auto_step). -/
def flagCount (mf : Minefield) (x y : Nat) : Nat :=
  ((mf.neighbors_coords x y).filter
    (fun p => decide ((getSpot mf p.1 p.2).state = SpotState.Flagged))).length

/-- Automatically step on all hidden neighbors of a revealed spot
whose flag count matches its mine count (Minefield::auto_step). -/
def Minefield.auto_step (mf : Minefield) (x y : Nat) : Minefield × StepResult :=
  match mf.spot x y with
  | none => (mf, StepResult.Invalid)
  | some s =>
    match s.kind with
    | SpotKind.Mine => (mf, StepResult.Invalid)
    | SpotKind.Empty mines =>
      if s.state = SpotState.Revealed ∧ flagCount mf x y = mines then
        autoStepLoop mf (mf.neighbors_coords x y)
      else (mf, StepResult.Phew)

/-- Check whether the minefield has been cleared: every mine flagged
and every empty spot revealed (Minefield::is_cleared). -/
def Minefield.is_cleared (mf : Minefield) : Bool :=
  mf.field.all (fun col => col.all (fun spot =>
    match spot.kind with
    | SpotKind.Mine => decide (spot.state = SpotState.Flagged)
    | SpotKind.Empty _ => decide (spot.state = SpotState.Revealed)))

/-- Set a flag on a hidden spot, clear the flag of a flagged spot, and
do nothing otherwise (Minefield::toggle_flag). -/
def Minefield.toggle_flag (mf : Minefield) (x y : Nat) : Minefield × FlagToggleResult :=
  match mf.spot x y with
  | none => (mf, FlagToggleResult.None)
  | some s =>
    match s.state with
    | SpotState.Hidden => (setSpotState mf x y SpotState.Flagged, FlagToggleResult.Added)
    | SpotState.Flagged => (setSpotState mf x y SpotState.Hidden, FlagToggleResult.Removed)
    | _ => (mf, FlagToggleResult.None)

/-- Well-formedness of the embedding: the backing lists match the
dimensions, and the dimensions are positive u16 values, as guaranteed
by Minefield::new. -/
def wellFormed (mf : Minefield) : Prop :=
  mf.field.length = mf.width ∧ (∀ col ∈ mf.field, col.length = mf.height) ∧
    0 < mf.width ∧ 0 < mf.height ∧ mf.width ≤ 65535 ∧ mf.height ≤ 65535

instance (mf : Minefield) : Decidable (wellFormed mf) := by
  unfold wellFormed; infer_instance

/-- Count over the grid of the spots satisfying p. -/
def countSpots (mf : Minefield) (p : Spot → Bool) : Nat :=
  ((List.range mf.width).map (fun x =>
    ((List.range mf.height).map (fun y => if p (getSpot mf x y) then 1 else 0)).sum)).sum

/-- Number of hidden spots of the grid. -/
def hiddenCount (mf : Minefield) : Nat :=
  countSpots mf (fun s => decide (s.state = SpotState.Hidden))

/-- Number of mine spots of the grid. -/
def mineCount (mf : Minefield) : Nat :=
  countSpots mf (fun s => decide (s.kind = SpotKind.Mine))

/-- The number of mine-kind neighbors of (x, y). -/
def mineNeighborCount (mf : Minefield) (x y : Nat) : Nat :=
  ((mf.neighbors_coords x y).filter
    (fun p => decide ((getSpot mf p.1 p.2).kind = SpotKind.Mine))).length

/-- A spot with its state set to Revealed. -/
def mkRev (s : Spot) : Spot := { s with state := SpotState.Revealed }

/-- The cells the flood reveal started at (sx, sy) reaches on field mf:
the start itself, plus every hidden empty cell adjacent to a reached
zero-count cell; only zero-count cells are expanded further. -/
inductive Reach (mf : Minefield) (sx sy : Nat) : Nat → Nat → Prop where
  | start : Reach mf sx sy sx sy
  | next {a b c d : Nat} : Reach mf sx sy a b →
      (getSpot mf a b).kind = SpotKind.Empty 0 →
      (c, d) ∈ mf.neighbors_coords a b →
      (getSpot mf c d).state = SpotState.Hidden →
      (∃ n, (getSpot mf c d).kind = SpotKind.Empty n) →
      Reach mf sx sy c d

/-- The loop invariant of the flood reveal started by step at (sx, sy)
on field mf0: relates the current field and worklist to the original
field through the reachability relation. -/
def floodInv (mf0 : Minefield) (sx sy : Nat) (mf : Minefield) (st : List (Nat × Nat)) : Prop :=
  wellFormed mf ∧ mf.width = mf0.width ∧ mf.height = mf0.height ∧
    (getSpot mf sx sy).state = SpotState.Revealed ∧
    (∀ a b, getSpot mf a b = getSpot (setSpotState mf0 sx sy SpotState.Revealed) a b ∨
      (Reach mf0 sx sy a b ∧ getSpot mf a b = mkRev (getSpot mf0 a b))) ∧
    (∀ p ∈ st, Reach mf0 sx sy p.1 p.2 ∧ (getSpot mf0 p.1 p.2).kind = SpotKind.Empty 0 ∧
      p.1 < mf0.width ∧ p.2 < mf0.height) ∧
    (∀ a b, Reach mf0 sx sy a b → (getSpot mf0 a b).kind = SpotKind.Empty 0 →
      (getSpot mf a b).state = SpotState.Revealed →
      ((a, b) ∈ st ∨ ∀ c d, (c, d) ∈ neighborsList mf0.width mf0.height a b →
        ¬((getSpot mf c d).state = SpotState.Hidden ∧
          ∃ n, (getSpot mf c d).kind = SpotKind.Empty n)))


/-- Push-counting clone of floodNb: identical computation, plus a
counter incremented at each worklist push. -/
def floodNbC (mf : Minefield) :
    List (Nat × Nat) → List (Nat × Nat) → Nat → (Minefield × List (Nat × Nat)) × Nat
  | [], st, c => ((mf, st), c)
  | p :: rest, st, c =>
    let s := getSpot mf p.1 p.2
    if s.state = SpotState.Hidden then
      match s.kind with
      | SpotKind.Empty n =>
        let mf' := setSpotState mf p.1 p.2 SpotState.Revealed
        if n = 0 then floodNbC mf' rest (p :: st) (c + 1) else floodNbC mf' rest st c
      | SpotKind.Mine => floodNbC mf rest st c
    else floodNbC mf rest st c

/-- Push-counting clone of floodLoop. -/
def floodLoopC : Nat → Minefield → List (Nat × Nat) → Nat → (Minefield × List (Nat × Nat)) × Nat
  | 0, mf, st, c => ((mf, st), c)
  | _ + 1, mf, [], c => ((mf, []), c)
  | fuel + 1, mf, p :: rest, c =>
    let r := floodNbC mf (mf.neighbors_coords p.1 p.2) rest c
    floodLoopC fuel r.1.1 r.1.2 r.2


/-! ## Concrete example fields -/


/-- The 3 x 4 test field of the Rust unit tests, mines at (2,0) and (0,3). -/
def mfEx : Minefield := ((Minefield.new 3 4).place_mine 2 0).place_mine 0 3

/-- The 3 x 4 test field with spot (0,1) flagged. -/
def mfExFlag : Minefield := setSpotState mfEx 0 1 SpotState.Flagged

/-- The neighbor-count bookkeeping invariant: every empty spot records
the exact number of mine spots among its neighbors. -/
def goodCounts (mf : Minefield) : Prop :=
  ∀ x y, x < mf.width → y < mf.height →
    ∀ n, (getSpot mf x y).kind = SpotKind.Empty n → n = mineNeighborCount mf x y


/-- The invariant of the mine-placement loop after k iterations: the
field stays well formed with its dimensions and mines count, the
remaining-spots list holds exactly the not-yet-mined cell indices
with no duplicates, and exactly k cells hold mines. -/
def minesInv (mf0 : Minefield) (k : Nat) (st : Minefield × List Nat) : Prop :=
  wellFormed st.1 ∧ st.1.width = mf0.width ∧ st.1.height = mf0.height ∧
    st.1.mines = mf0.mines ∧ st.2.Nodup ∧
    st.2.length = mf0.width * mf0.height - k ∧
    (∀ idx ∈ st.2, idx < mf0.width * mf0.height ∧
      (getSpot st.1 (idx % mf0.width) (idx / mf0.width)).kind ≠ SpotKind.Mine) ∧
    mineCount st.1 = k


/-! ## Basic grid lemmas -/

theorem getSpot_def (mf : Minefield) (x y : Nat) :
    getSpot mf x y = (mf.field[x]?.getD [])[y]?.getD default := by
  simp [getSpot, List.getD_eq_getElem?_getD]

theorem width_modifySpot (mf : Minefield) (x y : Nat) (f : Spot → Spot) :
    (modifySpot mf x y f).width = mf.width := rfl

theorem height_modifySpot (mf : Minefield) (x y : Nat) (f : Spot → Spot) :
    (modifySpot mf x y f).height = mf.height := rfl

theorem mines_modifySpot (mf : Minefield) (x y : Nat) (f : Spot → Spot) :
    (modifySpot mf x y f).mines = mf.mines := rfl

theorem wellFormed_modifySpot {mf : Minefield} (h : wellFormed mf) (x y : Nat) (f : Spot → Spot) :
    wellFormed (modifySpot mf x y f) := by
  obtain ⟨h1, h2, h3⟩ := h
  refine ⟨?_, ?_, h3⟩
  · simpa [modifySpot] using h1
  · intro col hcol
    simp only [modifySpot] at hcol
    by_cases hx : x < mf.field.length
    · rcases List.mem_or_eq_of_mem_set hcol with hmem | heq
      · exact h2 col hmem
      · subst heq
        rw [List.length_set, List.getD_eq_getElem _ _ hx]
        exact h2 _ (List.getElem_mem hx)
    · rw [List.set_eq_of_length_le (by omega)] at hcol
      exact h2 col hcol

theorem getSpot_modifySpot_ne {mf : Minefield} {x y a b : Nat} (f : Spot → Spot)
    (hne : ¬(a = x ∧ b = y)) :
    getSpot (modifySpot mf x y f) a b = getSpot mf a b := by
  rw [getSpot_def, getSpot_def]
  simp only [modifySpot]
  by_cases hax : a = x
  · subst hax
    have hby : b ≠ y := fun hb => hne ⟨rfl, hb⟩
    by_cases hlt : a < mf.field.length
    · rw [List.getElem?_set_self hlt]
      simp only [Option.getD_some]
      rw [List.getElem?_set_ne (Ne.symm hby), List.getD_eq_getElem?_getD,
        List.getElem?_eq_getElem hlt]
    · rw [List.set_eq_of_length_le (by omega)]
  · rw [List.getElem?_set_ne (fun h => hax h.symm)]

theorem getSpot_modifySpot_self {mf : Minefield} (hwf : wellFormed mf) {x y : Nat}
    (hx : x < mf.width) (hy : y < mf.height) (f : Spot → Spot) :
    getSpot (modifySpot mf x y f) x y = f (getSpot mf x y) := by
  obtain ⟨h1, h2, -⟩ := hwf
  have hxl : x < mf.field.length := by omega
  have hcol : mf.field.getD x [] = mf.field[x] := List.getD_eq_getElem _ _ hxl
  have hyl : y < (mf.field.getD x []).length := by
    rw [hcol]; rw [h2 _ (List.getElem_mem hxl)]; omega
  rw [getSpot_def]
  simp only [modifySpot]
  rw [List.getElem?_set_self hxl]
  simp only [Option.getD_some]
  rw [List.getElem?_set_self hyl]
  simp only [Option.getD_some]

theorem getSpot_modifySpot {mf : Minefield} (hwf : wellFormed mf) {x y : Nat}
    (hx : x < mf.width) (hy : y < mf.height) (f : Spot → Spot) (a b : Nat) :
    getSpot (modifySpot mf x y f) a b =
      if a = x ∧ b = y then f (getSpot mf x y) else getSpot mf a b := by
  by_cases h : a = x ∧ b = y
  · obtain ⟨rfl, rfl⟩ := h
    simp [getSpot_modifySpot_self hwf hx hy]
  · simp [h, getSpot_modifySpot_ne f h]

theorem getSpot_new (w h x y : Nat) : getSpot (Minefield.new w h) x y = default := by
  rw [getSpot_def]
  simp only [Minefield.new]
  rw [List.getElem?_replicate]
  by_cases hx : x < if w = 0 then 1 else w
  · simp only [hx, if_true, Option.getD_some]
    rw [List.getElem?_replicate]
    by_cases hy : y < if h = 0 then 1 else h
    · simp [hy]
    · simp [hy]
  · simp [hx]

theorem wellFormed_new {w h : Nat} (hw : w ≤ 65535) (hh : h ≤ 65535) :
    wellFormed (Minefield.new w h) := by
  refine ⟨by simp [Minefield.new], ?_, ?_, ?_, ?_, ?_⟩
  · intro col hcol
    simp only [Minefield.new] at hcol ⊢
    rw [List.eq_of_mem_replicate hcol]
    simp
  all_goals simp only [Minefield.new]
  all_goals split <;> omega

theorem width_new (w h : Nat) : (Minefield.new w h).width = if w = 0 then 1 else w := rfl

theorem height_new (w h : Nat) : (Minefield.new w h).height = if h = 0 then 1 else h := rfl

/-! ## Neighbor enumeration lemmas -/

theorem mem_neighborsList {w h x y : Nat} (hx : x < 65535) (hy : y < 65535) (a b : Nat) :
    (a, b) ∈ neighborsList w h x y ↔
      a < w ∧ b < h ∧ ¬(a = x ∧ b = y) ∧
        x ≤ a + 1 ∧ a ≤ x + 1 ∧ y ≤ b + 1 ∧ b ≤ y + 1 := by
  simp only [neighborsList, List.mem_filter, List.mem_flatMap, List.mem_map,
    List.mem_range'_1, Bool.and_eq_true, Bool.not_eq_true', Bool.and_eq_false_iff,
    decide_eq_true_eq, decide_eq_false_iff_not, Prod.mk.injEq]
  constructor
  · rintro ⟨⟨i, hi, j, hj, rfl, rfl⟩, ⟨hw, hh⟩, hne⟩
    refine ⟨hw, hh, ?_, ?_⟩
    · rintro ⟨rfl, rfl⟩
      rcases hne with hne | hne <;> exact hne rfl
    · split_ifs at hi hj <;> omega
  · rintro ⟨hw, hh, hne, hb⟩
    refine ⟨⟨a, ?_, b, ?_, rfl, rfl⟩, ⟨hw, hh⟩, ?_⟩
    · split_ifs <;> omega
    · split_ifs <;> omega
    · by_cases hax : a = x
      · subst hax
        right
        intro hby
        subst hby
        exact hne ⟨rfl, rfl⟩
      · left; exact hax

theorem neighborsList_inBounds {w h x y : Nat} {p : Nat × Nat}
    (hp : p ∈ neighborsList w h x y) : p.1 < w ∧ p.2 < h := by
  simp only [neighborsList, List.mem_filter, Bool.and_eq_true, decide_eq_true_eq] at hp
  exact ⟨hp.2.1.1, hp.2.1.2⟩

theorem self_not_mem_neighborsList (w h x y : Nat) : (x, y) ∉ neighborsList w h x y := by
  simp [neighborsList, List.mem_filter]

theorem nodup_neighborsList (w h x y : Nat) : (neighborsList w h x y).Nodup := by
  apply List.Nodup.filter
  rw [List.nodup_flatMap]
  constructor
  · intro i _
    exact (List.nodup_range' _ _).map (fun j k hjk => by simpa using hjk)
  · apply List.Pairwise.imp ?_ (List.nodup_range' _ _)
    intro i j hij
    intro p hp hq
    simp only [List.mem_map] at hp hq
    obtain ⟨jv, -, rfl⟩ := hp
    obtain ⟨kv, -, hk⟩ := hq
    exact hij (congrArg Prod.fst hk).symm

theorem length_neighborsList_le (w h x y : Nat) : (neighborsList w h x y).length ≤ 8 := by
  have key : ∀ (l : List (Nat × Nat)) (pred : Nat × Nat → Bool),
      (x, y) ∈ l → pred (x, y) = false → l.length ≤ 9 → (l.filter pred).length ≤ 8 := by
    intro l pred hmem hpred hlen
    have hlt : (l.filter pred).length < l.length :=
      List.length_filter_lt_length_iff_exists.2 ⟨(x, y), hmem, by simp [hpred]⟩
    omega
  simp only [neighborsList]
  apply key
  · simp only [List.mem_flatMap, List.mem_map, List.mem_range'_1]
    exact ⟨x, by split_ifs <;> omega, y, ⟨by split_ifs <;> omega, rfl⟩⟩
  · simp
  · rw [List.length_flatMap]
    have h3 : ∀ v ∈ List.map (List.length ∘ fun i =>
        (List.range' (if 0 < y then y - 1 else y)
          ((if y < 65535 then y + 1 else y) + 1 - (if 0 < y then y - 1 else y))).map
            (fun j => (i, j)))
        (List.range' (if 0 < x then x - 1 else x)
          ((if x < 65535 then x + 1 else x) + 1 - (if 0 < x then x - 1 else x))), v ≤ 3 := by
      intro v hv
      simp only [List.mem_map, Function.comp, List.length_map, List.length_range'] at hv
      obtain ⟨i, -, rfl⟩ := hv
      split_ifs <;> omega
    have hsum := List.sum_le_card_nsmul _ 3 h3
    simp only [smul_eq_mul, List.length_map, List.length_range'] at hsum
    have hle : ((if x < 65535 then x + 1 else x) + 1 - (if 0 < x then x - 1 else x)) ≤ 3 := by
      split_ifs <;> omega
    calc _ ≤ _ := hsum
      _ ≤ 9 := by omega

theorem neighborsList_symm {w h x y a b : Nat} (hw : w ≤ 65535) (hh : h ≤ 65535)
    (hx : x < w) (hy : y < h) (ha : a < w) (hb : b < h) :
    ((a, b) ∈ neighborsList w h x y ↔ (x, y) ∈ neighborsList w h a b) := by
  rw [mem_neighborsList (by omega) (by omega), mem_neighborsList (by omega) (by omega)]
  constructor
  · rintro ⟨h1, h2, h3, h4⟩
    exact ⟨hx, hy, fun hc => h3 ⟨hc.1.symm, hc.2.symm⟩, by omega⟩
  · rintro ⟨h1, h2, h3, h4⟩
    exact ⟨ha, hb, fun hc => h3 ⟨hc.1.symm, hc.2.symm⟩, by omega⟩

/-! ## Counting lemmas -/

theorem sum_range_map_eq_except {n i : Nat} (f g : Nat → Nat) (hi : i < n)
    (hagree : ∀ j, j ≠ i → f j = g j) :
    ((List.range n).map f).sum + g i = ((List.range n).map g).sum + f i := by
  induction n with
  | zero => omega
  | succ k ih =>
    rw [List.range_succ, List.map_append, List.map_append, List.sum_append, List.sum_append]
    by_cases hik : i = k
    · subst hik
      have heq : List.map f (List.range i) = List.map g (List.range i) :=
        List.map_congr_left (fun j hj => hagree j (by simp at hj; omega))
      rw [heq]
      simp only [List.map_cons, List.map_nil, List.sum_cons, List.sum_nil]
      omega
    · have hik' : i < k := by omega
      have := ih hik'
      simp only [List.map_cons, List.map_nil, List.sum_cons, List.sum_nil]
      have hfk : f k = g k := hagree k (by omega)
      omega

theorem sum_range_map_le (n : Nat) (f : Nat → Nat) (c : Nat) (h : ∀ j, f j ≤ c) :
    ((List.range n).map f).sum ≤ n * c := by
  have hb := List.sum_le_card_nsmul ((List.range n).map f) c ?_
  · simpa using hb
  · intro v hv
    simp only [List.mem_map] at hv
    obtain ⟨j, -, rfl⟩ := hv
    exact h j

theorem countSpots_modifySpot {mf : Minefield} (hwf : wellFormed mf) {x y : Nat}
    (hx : x < mf.width) (hy : y < mf.height) (f : Spot → Spot) (p : Spot → Bool) :
    countSpots (modifySpot mf x y f) p + (if p (getSpot mf x y) then 1 else 0)
      = countSpots mf p + (if p (f (getSpot mf x y)) then 1 else 0) := by
  unfold countSpots
  rw [width_modifySpot, height_modifySpot]
  have hself := getSpot_modifySpot_self hwf hx hy f
  have hinner : ((List.range mf.height).map
        (fun b => if p (getSpot (modifySpot mf x y f) x b) then 1 else 0)).sum
        + (if p (getSpot mf x y) then 1 else 0)
      = ((List.range mf.height).map (fun b => if p (getSpot mf x b) then 1 else 0)).sum
        + (if p (getSpot (modifySpot mf x y f) x y) then 1 else 0) := by
    apply sum_range_map_eq_except _ _ hy
    intro j hj
    rw [getSpot_modifySpot_ne f (fun hc => hj hc.2)]
  have houter : ((List.range mf.width).map (fun a =>
        ((List.range mf.height).map
          (fun b => if p (getSpot (modifySpot mf x y f) a b) then 1 else 0)).sum)).sum
        + ((List.range mf.height).map (fun b => if p (getSpot mf x b) then 1 else 0)).sum
      = ((List.range mf.width).map (fun a =>
        ((List.range mf.height).map (fun b => if p (getSpot mf a b) then 1 else 0)).sum)).sum
        + ((List.range mf.height).map
          (fun b => if p (getSpot (modifySpot mf x y f) x b) then 1 else 0)).sum := by
    apply sum_range_map_eq_except _ _ hx
    intro j hj
    apply congrArg List.sum
    apply List.map_congr_left
    intro b hb
    rw [getSpot_modifySpot_ne f (fun hc => hj hc.1)]
  rw [hself] at hinner
  omega

theorem countSpots_le (mf : Minefield) (p : Spot → Bool) :
    countSpots mf p ≤ mf.width * mf.height := by
  unfold countSpots
  apply sum_range_map_le
  intro a
  have := sum_range_map_le mf.height (fun b => if p (getSpot mf a b) then 1 else 0) 1 ?_
  · omega
  · intro b
    simp only []
    split <;> omega

theorem hiddenCount_le (mf : Minefield) : hiddenCount mf ≤ mf.width * mf.height :=
  countSpots_le mf _

theorem hiddenCount_reveal {mf : Minefield} (hwf : wellFormed mf) {x y : Nat}
    (hx : x < mf.width) (hy : y < mf.height)
    (hh : (getSpot mf x y).state = SpotState.Hidden) :
    hiddenCount (setSpotState mf x y SpotState.Revealed) + 1 = hiddenCount mf := by
  have := countSpots_modifySpot hwf hx hy (fun s => { s with state := SpotState.Revealed })
    (fun s => decide (s.state = SpotState.Hidden))
  unfold hiddenCount setSpotState
  simp only [hh] at this
  simpa using this

/-! ## Flood-fill body lemmas -/

theorem floodNb_nil (mf : Minefield) (st : List (Nat × Nat)) : floodNb mf [] st = (mf, st) := rfl

theorem floodNb_cons_skip {mf : Minefield} {p : Nat × Nat} (rest st : List (Nat × Nat))
    (h : (getSpot mf p.1 p.2).state ≠ SpotState.Hidden) :
    floodNb mf (p :: rest) st = floodNb mf rest st := by
  simp only [floodNb, if_neg h]

theorem floodNb_cons_mine {mf : Minefield} {p : Nat × Nat} (rest st : List (Nat × Nat))
    (hs : (getSpot mf p.1 p.2).state = SpotState.Hidden)
    (hk : (getSpot mf p.1 p.2).kind = SpotKind.Mine) :
    floodNb mf (p :: rest) st = floodNb mf rest st := by
  simp only [floodNb, if_pos hs, hk]

theorem floodNb_cons_zero {mf : Minefield} {p : Nat × Nat} (rest st : List (Nat × Nat))
    (hs : (getSpot mf p.1 p.2).state = SpotState.Hidden)
    (hk : (getSpot mf p.1 p.2).kind = SpotKind.Empty 0) :
    floodNb mf (p :: rest) st
      = floodNb (setSpotState mf p.1 p.2 SpotState.Revealed) rest (p :: st) := by
  simp only [floodNb, if_pos hs, hk]
  simp

theorem floodNb_cons_pos {mf : Minefield} {p : Nat × Nat} (rest st : List (Nat × Nat)) {n : Nat}
    (hs : (getSpot mf p.1 p.2).state = SpotState.Hidden)
    (hk : (getSpot mf p.1 p.2).kind = SpotKind.Empty n) (hn : n ≠ 0) :
    floodNb mf (p :: rest) st
      = floodNb (setSpotState mf p.1 p.2 SpotState.Revealed) rest st := by
  simp only [floodNb, if_pos hs, hk, if_neg hn]

theorem width_setSpotState (mf : Minefield) (x y : Nat) (s : SpotState) :
    (setSpotState mf x y s).width = mf.width := rfl

theorem height_setSpotState (mf : Minefield) (x y : Nat) (s : SpotState) :
    (setSpotState mf x y s).height = mf.height := rfl

theorem floodNb_shape : ∀ (l : List (Nat × Nat)) (mf : Minefield) (st : List (Nat × Nat)),
    (floodNb mf l st).1.width = mf.width ∧ (floodNb mf l st).1.height = mf.height ∧
      (floodNb mf l st).1.mines = mf.mines ∧
      (wellFormed mf → wellFormed (floodNb mf l st).1) := by
  intro l
  induction l with
  | nil => intro mf st; exact ⟨rfl, rfl, rfl, fun h => h⟩
  | cons p rest ih =>
    intro mf st
    by_cases hs : (getSpot mf p.1 p.2).state = SpotState.Hidden
    · rcases hk : (getSpot mf p.1 p.2).kind with _ | n
      · rw [floodNb_cons_mine rest st hs hk]
        exact ih mf st
      · by_cases hn : n = 0
        · subst hn
          rw [floodNb_cons_zero rest st hs hk]
          have := ih (setSpotState mf p.1 p.2 SpotState.Revealed) (p :: st)
          exact ⟨this.1, this.2.1, this.2.2.1,
            fun h => this.2.2.2 (wellFormed_modifySpot h _ _ _)⟩
        · rw [floodNb_cons_pos rest st hs hk hn]
          have := ih (setSpotState mf p.1 p.2 SpotState.Revealed) st
          exact ⟨this.1, this.2.1, this.2.2.1,
            fun h => this.2.2.2 (wellFormed_modifySpot h _ _ _)⟩
    · rw [floodNb_cons_skip rest st hs]
      exact ih mf st

theorem floodNb_st_mem : ∀ (l : List (Nat × Nat)) (mf : Minefield) (st : List (Nat × Nat)),
    ∀ q ∈ st, q ∈ (floodNb mf l st).2 := by
  intro l
  induction l with
  | nil => intro mf st q hq; exact hq
  | cons p rest ih =>
    intro mf st q hq
    by_cases hs : (getSpot mf p.1 p.2).state = SpotState.Hidden
    · rcases hk : (getSpot mf p.1 p.2).kind with _ | n
      · rw [floodNb_cons_mine rest st hs hk]; exact ih mf st q hq
      · by_cases hn : n = 0
        · subst hn
          rw [floodNb_cons_zero rest st hs hk]
          exact ih _ (p :: st) q (List.mem_cons_of_mem p hq)
        · rw [floodNb_cons_pos rest st hs hk hn]
          exact ih _ st q hq
    · rw [floodNb_cons_skip rest st hs]; exact ih mf st q hq

theorem floodNb_getSpot : ∀ (l : List (Nat × Nat)) (mf : Minefield) (st : List (Nat × Nat)),
    wellFormed mf → (∀ p ∈ l, p.1 < mf.width ∧ p.2 < mf.height) →
    ∀ a b, getSpot (floodNb mf l st).1 a b = getSpot mf a b ∨
      ((a, b) ∈ l ∧ (getSpot mf a b).state = SpotState.Hidden ∧
        (∃ n, (getSpot mf a b).kind = SpotKind.Empty n) ∧
        getSpot (floodNb mf l st).1 a b = mkRev (getSpot mf a b) ∧
        ((getSpot mf a b).kind = SpotKind.Empty 0 → (a, b) ∈ (floodNb mf l st).2)) := by
  intro l
  induction l with
  | nil => intro mf st _ _ a b; left; rfl
  | cons p rest ih =>
    intro mf st hwf hbl a b
    have hp := hbl p (List.mem_cons_self p rest)
    have hbr : ∀ q ∈ rest, q.1 < mf.width ∧ q.2 < mf.height :=
      fun q hq => hbl q (List.mem_cons_of_mem p hq)
    by_cases hs : (getSpot mf p.1 p.2).state = SpotState.Hidden
    · rcases hk : (getSpot mf p.1 p.2).kind with _ | n
      · rw [floodNb_cons_mine rest st hs hk]
        rcases ih mf st hwf hbr a b with hleft | ⟨hmem, hrest⟩
        · left; exact hleft
        · right; exact ⟨List.mem_cons_of_mem p hmem, hrest⟩
      · have hwf' : wellFormed (setSpotState mf p.1 p.2 SpotState.Revealed) :=
          wellFormed_modifySpot hwf _ _ _
        have hself : getSpot (setSpotState mf p.1 p.2 SpotState.Revealed) p.1 p.2
            = mkRev (getSpot mf p.1 p.2) :=
          getSpot_modifySpot_self hwf hp.1 hp.2 _
        have hbr' : ∀ q ∈ rest,
            q.1 < (setSpotState mf p.1 p.2 SpotState.Revealed).width ∧
              q.2 < (setSpotState mf p.1 p.2 SpotState.Revealed).height := hbr
        by_cases hn : n = 0
        · subst hn
          rw [floodNb_cons_zero rest st hs hk]
          by_cases hab : (a, b) = p
          · rw [show a = p.1 from congrArg Prod.fst hab, show b = p.2 from congrArg Prod.snd hab]
            rcases ih _ (p :: st) hwf' hbr' p.1 p.2 with hleft | ⟨-, hhid, -⟩
            · right
              refine ⟨List.mem_cons_self p rest, hs, ⟨0, hk⟩, by rw [hleft, hself], fun _ => ?_⟩
              exact floodNb_st_mem rest _ (p :: st) p (List.mem_cons_self p st)
            · rw [hself] at hhid
              simp [mkRev] at hhid
          · have hne : ¬(a = p.1 ∧ b = p.2) := by
              intro hc
              exact hab (Prod.ext hc.1 hc.2)
            have hra : getSpot (setSpotState mf p.1 p.2 SpotState.Revealed) a b
                = getSpot mf a b := getSpot_modifySpot_ne _ hne
            rcases ih _ (p :: st) hwf' hbr' a b with hleft | ⟨hmem, hhid, hemp, hval, hpush⟩
            · left; rw [hleft, hra]
            · right
              rw [hra] at hhid hemp hval hpush
              exact ⟨List.mem_cons_of_mem p hmem, hhid, hemp, hval, hpush⟩
        · rw [floodNb_cons_pos rest st hs hk hn]
          by_cases hab : (a, b) = p
          · rw [show a = p.1 from congrArg Prod.fst hab, show b = p.2 from congrArg Prod.snd hab]
            rcases ih _ st hwf' hbr' p.1 p.2 with hleft | ⟨-, hhid, -⟩
            · right
              refine ⟨List.mem_cons_self p rest, hs, ⟨n, hk⟩, by rw [hleft, hself], fun hk0 => ?_⟩
              rw [hk] at hk0
              exact absurd (SpotKind.Empty.inj hk0) hn
            · rw [hself] at hhid
              simp [mkRev] at hhid
          · have hne : ¬(a = p.1 ∧ b = p.2) := by
              intro hc
              exact hab (Prod.ext hc.1 hc.2)
            have hra : getSpot (setSpotState mf p.1 p.2 SpotState.Revealed) a b
                = getSpot mf a b := getSpot_modifySpot_ne _ hne
            rcases ih _ st hwf' hbr' a b with hleft | ⟨hmem, hhid, hemp, hval, hpush⟩
            · left; rw [hleft, hra]
            · right
              rw [hra] at hhid hemp hval hpush
              exact ⟨List.mem_cons_of_mem p hmem, hhid, hemp, hval, hpush⟩
    · rw [floodNb_cons_skip rest st hs]
      rcases ih mf st hwf hbr a b with hleft | ⟨hmem, hrest⟩
      · left; exact hleft
      · right; exact ⟨List.mem_cons_of_mem p hmem, hrest⟩

theorem floodNb_processed : ∀ (l : List (Nat × Nat)) (mf : Minefield) (st : List (Nat × Nat)),
    wellFormed mf → (∀ p ∈ l, p.1 < mf.width ∧ p.2 < mf.height) →
    ∀ p ∈ l, ¬((getSpot (floodNb mf l st).1 p.1 p.2).state = SpotState.Hidden ∧
      ∃ n, (getSpot (floodNb mf l st).1 p.1 p.2).kind = SpotKind.Empty n) := by
  intro l
  induction l with
  | nil => intro mf st _ _ p hp; cases hp
  | cons q rest ih =>
    intro mf st hwf hbl p hp
    have hq := hbl q (List.mem_cons_self q rest)
    have hbr : ∀ r ∈ rest, r.1 < mf.width ∧ r.2 < mf.height :=
      fun r hr => hbl r (List.mem_cons_of_mem q hr)
    by_cases hs : (getSpot mf q.1 q.2).state = SpotState.Hidden
    · rcases hk : (getSpot mf q.1 q.2).kind with _ | n
      · rw [floodNb_cons_mine rest st hs hk]
        rcases List.mem_cons.1 hp with rfl | hpr
        · rintro ⟨-, n, hkind⟩
          rcases floodNb_getSpot rest mf st hwf hbr p.1 p.2 with hleft | ⟨-, -, -, hval, -⟩
          · rw [hleft, hk] at hkind; cases hkind
          · rw [hval] at hkind
            simp only [mkRev] at hkind
            rw [hk] at hkind; cases hkind
        · exact ih mf st hwf hbr p hpr
      · have hwf' : wellFormed (setSpotState mf q.1 q.2 SpotState.Revealed) :=
          wellFormed_modifySpot hwf _ _ _
        have hself : getSpot (setSpotState mf q.1 q.2 SpotState.Revealed) q.1 q.2
            = mkRev (getSpot mf q.1 q.2) :=
          getSpot_modifySpot_self hwf hq.1 hq.2 _
        have hbr' : ∀ r ∈ rest,
            r.1 < (setSpotState mf q.1 q.2 SpotState.Revealed).width ∧
              r.2 < (setSpotState mf q.1 q.2 SpotState.Revealed).height := hbr
        have hkey : ∀ st', ∀ p ∈ q :: rest,
            ¬((getSpot (floodNb (setSpotState mf q.1 q.2 SpotState.Revealed) rest st').1
                p.1 p.2).state = SpotState.Hidden ∧
              ∃ m, (getSpot (floodNb (setSpotState mf q.1 q.2 SpotState.Revealed) rest st').1
                p.1 p.2).kind = SpotKind.Empty m) := by
          intro st' p hp
          rcases List.mem_cons.1 hp with rfl | hpr
          · rintro ⟨hhid, -⟩
            rcases floodNb_getSpot rest _ st' hwf' hbr' p.1 p.2 with hleft | ⟨-, hh2, -⟩
            · rw [hleft, hself] at hhid
              simp [mkRev] at hhid
            · rw [hself] at hh2
              simp [mkRev] at hh2
          · exact ih _ st' hwf' hbr' p hpr
        by_cases hn : n = 0
        · subst hn
          rw [floodNb_cons_zero rest st hs hk]
          exact hkey (q :: st) p hp
        · rw [floodNb_cons_pos rest st hs hk hn]
          exact hkey st p hp
    · rw [floodNb_cons_skip rest st hs]
      rcases List.mem_cons.1 hp with rfl | hpr
      · rintro ⟨hhid, -⟩
        rcases floodNb_getSpot rest mf st hwf hbr p.1 p.2 with hleft | ⟨-, hh2, -⟩
        · rw [hleft] at hhid; exact hs hhid
        · exact hs hh2
      · exact ih mf st hwf hbr p hpr

theorem floodNb_measure : ∀ (l : List (Nat × Nat)) (mf : Minefield) (st : List (Nat × Nat)),
    wellFormed mf → (∀ p ∈ l, p.1 < mf.width ∧ p.2 < mf.height) →
    hiddenCount (floodNb mf l st).1 + (floodNb mf l st).2.length
      ≤ hiddenCount mf + st.length := by
  intro l
  induction l with
  | nil => intro mf st _ _; exact Nat.le_refl _
  | cons p rest ih =>
    intro mf st hwf hbl
    have hp := hbl p (List.mem_cons_self p rest)
    have hbr : ∀ q ∈ rest, q.1 < mf.width ∧ q.2 < mf.height :=
      fun q hq => hbl q (List.mem_cons_of_mem p hq)
    by_cases hs : (getSpot mf p.1 p.2).state = SpotState.Hidden
    · rcases hk : (getSpot mf p.1 p.2).kind with _ | n
      · rw [floodNb_cons_mine rest st hs hk]
        exact ih mf st hwf hbr
      · have hwf' : wellFormed (setSpotState mf p.1 p.2 SpotState.Revealed) :=
          wellFormed_modifySpot hwf _ _ _
        have hdec := hiddenCount_reveal hwf hp.1 hp.2 hs
        by_cases hn : n = 0
        · subst hn
          rw [floodNb_cons_zero rest st hs hk]
          have := ih _ (p :: st) hwf' hbr
          simp only [List.length_cons] at this
          omega
        · rw [floodNb_cons_pos rest st hs hk hn]
          have := ih _ st hwf' hbr
          omega
    · rw [floodNb_cons_skip rest st hs]
      exact ih mf st hwf hbr

theorem floodNb_nodup : ∀ (l : List (Nat × Nat)) (mf : Minefield) (st : List (Nat × Nat)),
    wellFormed mf → (∀ p ∈ l, p.1 < mf.width ∧ p.2 < mf.height) →
    st.Nodup → (∀ p ∈ st, (getSpot mf p.1 p.2).state = SpotState.Revealed) →
    (floodNb mf l st).2.Nodup ∧
      ∀ p ∈ (floodNb mf l st).2,
        (getSpot (floodNb mf l st).1 p.1 p.2).state = SpotState.Revealed := by
  intro l
  induction l with
  | nil => intro mf st _ _ hnd hrev; exact ⟨hnd, hrev⟩
  | cons p rest ih =>
    intro mf st hwf hbl hnd hrev
    have hp := hbl p (List.mem_cons_self p rest)
    have hbr : ∀ q ∈ rest, q.1 < mf.width ∧ q.2 < mf.height :=
      fun q hq => hbl q (List.mem_cons_of_mem p hq)
    by_cases hs : (getSpot mf p.1 p.2).state = SpotState.Hidden
    · rcases hk : (getSpot mf p.1 p.2).kind with _ | n
      · rw [floodNb_cons_mine rest st hs hk]
        exact ih mf st hwf hbr hnd hrev
      · have hwf' : wellFormed (setSpotState mf p.1 p.2 SpotState.Revealed) :=
          wellFormed_modifySpot hwf _ _ _
        have hself : getSpot (setSpotState mf p.1 p.2 SpotState.Revealed) p.1 p.2
            = mkRev (getSpot mf p.1 p.2) :=
          getSpot_modifySpot_self hwf hp.1 hp.2 _
        have hrev' : ∀ q ∈ st,
            (getSpot (setSpotState mf p.1 p.2 SpotState.Revealed) q.1 q.2).state
              = SpotState.Revealed := by
          intro q hq
          by_cases hqp : q.1 = p.1 ∧ q.2 = p.2
          · have hcontra := hrev q hq
            rw [hqp.1, hqp.2] at hcontra
            exact absurd (hs.symm.trans hcontra) (by decide)
          · have hra : getSpot (setSpotState mf p.1 p.2 SpotState.Revealed) q.1 q.2
                = getSpot mf q.1 q.2 := getSpot_modifySpot_ne _ hqp
            rw [hra]
            exact hrev q hq
        by_cases hn : n = 0
        · subst hn
          rw [floodNb_cons_zero rest st hs hk]
          apply ih _ (p :: st) hwf' hbr
          · refine List.Nodup.cons ?_ hnd
            intro hmem
            have := hrev p hmem
            rw [this] at hs
            cases hs
          · intro q hq
            rcases List.mem_cons.1 hq with rfl | hqs
            · rw [hself]; rfl
            · exact hrev' q hqs
        · rw [floodNb_cons_pos rest st hs hk hn]
          exact ih _ st hwf' hbr hnd hrev'
    · rw [floodNb_cons_skip rest st hs]
      exact ih mf st hwf hbr hnd hrev

/-! ## Flood-fill loop lemmas -/

theorem floodLoop_zero (mf : Minefield) (st : List (Nat × Nat)) :
    floodLoop 0 mf st = (mf, st) := rfl

theorem floodLoop_nil (fuel : Nat) (mf : Minefield) : floodLoop (fuel + 1) mf [] = (mf, []) := rfl

theorem floodLoop_cons (fuel : Nat) (mf : Minefield) (p : Nat × Nat) (rest : List (Nat × Nat)) :
    floodLoop (fuel + 1) mf (p :: rest)
      = floodLoop fuel (floodNb mf (mf.neighbors_coords p.1 p.2) rest).1
          (floodNb mf (mf.neighbors_coords p.1 p.2) rest).2 := rfl

theorem floodLoop_shape : ∀ (fuel : Nat) (mf : Minefield) (st : List (Nat × Nat)),
    (floodLoop fuel mf st).1.width = mf.width ∧ (floodLoop fuel mf st).1.height = mf.height ∧
      (floodLoop fuel mf st).1.mines = mf.mines ∧
      (wellFormed mf → wellFormed (floodLoop fuel mf st).1) := by
  intro fuel
  induction fuel with
  | zero => intro mf st; exact ⟨rfl, rfl, rfl, fun h => h⟩
  | succ k ih =>
    intro mf st
    match st with
    | [] => exact ⟨rfl, rfl, rfl, fun h => h⟩
    | p :: rest =>
      rw [floodLoop_cons]
      have hnb := floodNb_shape (mf.neighbors_coords p.1 p.2) mf rest
      have := ih (floodNb mf (mf.neighbors_coords p.1 p.2) rest).1
        (floodNb mf (mf.neighbors_coords p.1 p.2) rest).2
      exact ⟨this.1.trans hnb.1, this.2.1.trans hnb.2.1, this.2.2.1.trans hnb.2.2.1,
        fun h => this.2.2.2 (hnb.2.2.2 h)⟩

theorem neighbors_coords_inBounds {mf : Minefield} {x y : Nat} {p : Nat × Nat}
    (hp : p ∈ mf.neighbors_coords x y) : p.1 < mf.width ∧ p.2 < mf.height :=
  neighborsList_inBounds hp

theorem floodLoop_term : ∀ (fuel : Nat) (mf : Minefield) (st : List (Nat × Nat)),
    wellFormed mf → hiddenCount mf + st.length ≤ fuel →
    (floodLoop fuel mf st).2 = [] := by
  intro fuel
  induction fuel with
  | zero =>
    intro mf st hwf hle
    match st with
    | [] => rfl
    | p :: rest => simp at hle
  | succ k ih =>
    intro mf st hwf hle
    match st with
    | [] => rfl
    | p :: rest =>
      rw [floodLoop_cons]
      have hnb := floodNb_shape (mf.neighbors_coords p.1 p.2) mf rest
      have hms := floodNb_measure (mf.neighbors_coords p.1 p.2) mf rest hwf
        (fun q hq => neighbors_coords_inBounds hq)
      apply ih _ _ (hnb.2.2.2 hwf)
      simp only [List.length_cons] at hle
      omega

theorem floodLoop_mono : ∀ (fuel : Nat) (mf : Minefield) (st : List (Nat × Nat)),
    wellFormed mf → ∀ a b, (getSpot mf a b).state ≠ SpotState.Hidden →
    getSpot (floodLoop fuel mf st).1 a b = getSpot mf a b := by
  intro fuel
  induction fuel with
  | zero => intro mf st _ a b _; rfl
  | succ k ih =>
    intro mf st hwf a b hnh
    match st with
    | [] => rfl
    | p :: rest =>
      rw [floodLoop_cons]
      have hnb := floodNb_shape (mf.neighbors_coords p.1 p.2) mf rest
      have hpt := floodNb_getSpot (mf.neighbors_coords p.1 p.2) mf rest hwf
        (fun q hq => neighbors_coords_inBounds hq) a b
      rcases hpt with hleft | ⟨-, hhid, -⟩
      · rw [ih _ _ (hnb.2.2.2 hwf) a b (by rw [hleft]; exact hnh), hleft]
      · exact absurd hhid hnh

theorem getSpot_modifySpot_cases (mf : Minefield) (x y : Nat) (f : Spot → Spot) :
    getSpot (modifySpot mf x y f) x y = f (getSpot mf x y) ∨
      getSpot (modifySpot mf x y f) x y = getSpot mf x y := by
  by_cases hx : x < mf.field.length
  · by_cases hy : y < (mf.field.getD x []).length
    · left
      rw [getSpot_def]
      simp only [modifySpot]
      rw [List.getElem?_set_self hx]
      simp only [Option.getD_some]
      rw [List.getElem?_set_self hy]
      simp only [Option.getD_some]
    · right
      rw [getSpot_def, getSpot_def]
      simp only [modifySpot]
      rw [List.set_eq_of_length_le (le_of_not_lt hy), List.getElem?_set_self hx]
      simp only [Option.getD_some]
      have hcol : mf.field.getD x [] = mf.field[x] := List.getD_eq_getElem _ _ hx
      rw [hcol, List.getElem?_eq_getElem hx]
      simp
  · right
    simp only [modifySpot]
    rw [List.set_eq_of_length_le (le_of_not_lt hx)]

theorem kind_setSpotState (mf : Minefield) (x y : Nat) (s : SpotState) (a b : Nat) :
    (getSpot (setSpotState mf x y s) a b).kind = (getSpot mf a b).kind := by
  unfold setSpotState
  by_cases h : a = x ∧ b = y
  · obtain ⟨rfl, rfl⟩ := h
    rcases getSpot_modifySpot_cases mf a b (fun sp => { sp with state := s }) with h1 | h1 <;>
      rw [h1]
  · rw [getSpot_modifySpot_ne _ h]

theorem floodNb_st_src : ∀ (l : List (Nat × Nat)) (mf : Minefield) (st : List (Nat × Nat)),
    ∀ q ∈ (floodNb mf l st).2, q ∈ st ∨
      (q ∈ l ∧ (getSpot mf q.1 q.2).state = SpotState.Hidden ∧
        (getSpot mf q.1 q.2).kind = SpotKind.Empty 0) := by
  intro l
  induction l with
  | nil => intro mf st q hq; left; exact hq
  | cons p rest ih =>
    intro mf st q hq
    by_cases hs : (getSpot mf p.1 p.2).state = SpotState.Hidden
    · rcases hk : (getSpot mf p.1 p.2).kind with _ | n
      · rw [floodNb_cons_mine rest st hs hk] at hq
        rcases ih mf st q hq with hin | ⟨hm, hrest⟩
        · left; exact hin
        · right; exact ⟨List.mem_cons_of_mem p hm, hrest⟩
      · by_cases hn : n = 0
        · subst hn
          rw [floodNb_cons_zero rest st hs hk] at hq
          rcases ih _ (p :: st) q hq with hin | ⟨hm, hh, hz⟩
          · rcases List.mem_cons.1 hin with rfl | hin'
            · right; exact ⟨List.mem_cons_self q rest, hs, hk⟩
            · left; exact hin'
          · by_cases hqp : q.1 = p.1 ∧ q.2 = p.2
            · right
              refine ⟨List.mem_cons_of_mem p hm, ?_, ?_⟩
              · rw [hqp.1, hqp.2]; exact hs
              · rw [hqp.1, hqp.2]; exact hk
            · have hra : getSpot (setSpotState mf p.1 p.2 SpotState.Revealed) q.1 q.2
                  = getSpot mf q.1 q.2 := getSpot_modifySpot_ne _ hqp
              rw [hra] at hh hz
              right; exact ⟨List.mem_cons_of_mem p hm, hh, hz⟩
        · rw [floodNb_cons_pos rest st hs hk hn] at hq
          rcases ih _ st q hq with hin | ⟨hm, hh, hz⟩
          · left; exact hin
          · by_cases hqp : q.1 = p.1 ∧ q.2 = p.2
            · exfalso
              rw [kind_setSpotState, hqp.1, hqp.2, hk] at hz
              exact hn (SpotKind.Empty.inj hz)
            · have hra : getSpot (setSpotState mf p.1 p.2 SpotState.Revealed) q.1 q.2
                  = getSpot mf q.1 q.2 := getSpot_modifySpot_ne _ hqp
              rw [hra] at hh hz
              right; exact ⟨List.mem_cons_of_mem p hm, hh, hz⟩
    · rw [floodNb_cons_skip rest st hs] at hq
      rcases ih mf st q hq with hin | ⟨hm, hrest⟩
      · left; exact hin
      · right; exact ⟨List.mem_cons_of_mem p hm, hrest⟩

/-- Inversion of the reachability relation: a reached cell is the
start, or a hidden empty cell of the original field. -/
theorem Reach_cases {mf : Minefield} {sx sy a b : Nat} (h : Reach mf sx sy a b) :
    (a = sx ∧ b = sy) ∨
      ((getSpot mf a b).state = SpotState.Hidden ∧
        ∃ n, (getSpot mf a b).kind = SpotKind.Empty n) := by
  cases h with
  | start => left; exact ⟨rfl, rfl⟩
  | next _ _ _ hh he => right; exact ⟨hh, he⟩

theorem floodInv_preserved {mf0 : Minefield} {sx sy : Nat}
    (hwf0 : wellFormed mf0) (hsx : sx < mf0.width) (hsy : sy < mf0.height)
    {mf : Minefield} {p : Nat × Nat} {rest : List (Nat × Nat)}
    (hinv : floodInv mf0 sx sy mf (p :: rest)) :
    floodInv mf0 sx sy (floodNb mf (mf.neighbors_coords p.1 p.2) rest).1
      (floodNb mf (mf.neighbors_coords p.1 p.2) rest).2 := by
  obtain ⟨p1, p2⟩ := p
  obtain ⟨Iwf, Iw, Ih, Istart, Ipt, Ist, Icomp⟩ := hinv
  have hmf1self : getSpot (setSpotState mf0 sx sy SpotState.Revealed) sx sy
      = mkRev (getSpot mf0 sx sy) := getSpot_modifySpot_self hwf0 hsx hsy _
  have hbnd : ∀ q ∈ mf.neighbors_coords p1 p2, q.1 < mf.width ∧ q.2 < mf.height :=
    fun q hq => neighbors_coords_inBounds hq
  have hnbw : mf.neighbors_coords p1 p2 = neighborsList mf0.width mf0.height p1 p2 := by
    rw [Minefield.neighbors_coords, Iw, Ih]
  have hp := Ist (p1, p2) (List.mem_cons_self _ rest)
  have hmf_mf0 : ∀ a b, (getSpot mf a b).state = SpotState.Hidden →
      getSpot mf a b = getSpot mf0 a b := by
    intro a b hh
    rcases Ipt a b with hl | ⟨-, hv⟩
    · by_cases hab : a = sx ∧ b = sy
      · obtain ⟨rfl, rfl⟩ := hab
        rw [hl, hmf1self] at hh
        simp [mkRev] at hh
      · rw [hl]
        exact getSpot_modifySpot_ne _ hab
    · rw [hv] at hh
      simp [mkRev] at hh
  have hkind : ∀ a b, (getSpot mf a b).kind = (getSpot mf0 a b).kind := by
    intro a b
    rcases Ipt a b with hl | ⟨-, hv⟩
    · rw [hl]
      exact kind_setSpotState mf0 sx sy _ a b
    · rw [hv]; rfl
  have hshape := floodNb_shape (mf.neighbors_coords p1 p2) mf rest
  refine ⟨hshape.2.2.2 Iwf, hshape.1.trans Iw, hshape.2.1.trans Ih, ?_, ?_, ?_, ?_⟩
  · rcases floodNb_getSpot _ mf rest Iwf hbnd sx sy with hl | ⟨-, -, -, hval, -⟩
    · rw [hl]; exact Istart
    · rw [hval]; rfl
  · intro a b
    rcases floodNb_getSpot _ mf rest Iwf hbnd a b with hl | ⟨hmem, hhid, hemp, hval, -⟩
    · rw [hl]; exact Ipt a b
    · right
      have h0 := hmf_mf0 a b hhid
      rw [hnbw] at hmem
      constructor
      · refine Reach.next hp.1 hp.2.1 hmem ?_ ?_
        · rw [← h0]; exact hhid
        · rw [← h0]; exact hemp
      · rw [hval, h0]
  · intro q hq
    rcases floodNb_st_src _ mf rest q hq with hin | ⟨hm, hh, hz⟩
    · exact Ist q (List.mem_cons_of_mem _ hin)
    · have h0 := hmf_mf0 q.1 q.2 hh
      rw [hnbw] at hm
      have hb0 := neighborsList_inBounds hm
      refine ⟨?_, ?_, hb0.1, hb0.2⟩
      · refine Reach.next hp.1 hp.2.1 hm ?_ ?_
        · rw [← h0]; exact hh
        · rw [← h0]; exact ⟨0, hz⟩
      · rw [← h0]; exact hz
  · intro a b hr hz0 hrev
    by_cases hab : a = p1 ∧ b = p2
    · obtain ⟨rfl, rfl⟩ := hab
      right
      intro c d hcd
      have hcd' : (c, d) ∈ mf.neighbors_coords a b := by rw [hnbw]; exact hcd
      exact floodNb_processed _ mf rest Iwf hbnd (c, d) hcd'
    · by_cases hprev : (getSpot mf a b).state = SpotState.Revealed
      · rcases Icomp a b hr hz0 hprev with hin | hproc
        · rcases List.mem_cons.1 hin with heq | hin'
          · exact absurd (Prod.mk.injEq .. ▸ heq) (by simpa using hab)
          · left
            exact floodNb_st_mem _ mf rest (a, b) hin'
        · right
          intro c d hcd
          rintro ⟨hH, n, hE⟩
          rcases floodNb_getSpot _ mf rest Iwf hbnd c d with hl | ⟨-, -, -, hval, -⟩
          · rw [hl] at hH hE
            exact hproc c d hcd ⟨hH, ⟨n, hE⟩⟩
          · rw [hval] at hH
            simp [mkRev] at hH
      · rcases floodNb_getSpot _ mf rest Iwf hbnd a b with hl | ⟨-, -, -, hval, hpush⟩
        · rw [hl] at hrev
          exact absurd hrev hprev
        · left
          apply hpush
          rw [hkind a b]
          exact hz0

theorem floodLoop_inv {mf0 : Minefield} {sx sy : Nat}
    (hwf0 : wellFormed mf0) (hsx : sx < mf0.width) (hsy : sy < mf0.height) :
    ∀ (fuel : Nat) (mf : Minefield) (st : List (Nat × Nat)),
    floodInv mf0 sx sy mf st →
    floodInv mf0 sx sy (floodLoop fuel mf st).1 (floodLoop fuel mf st).2 := by
  intro fuel
  induction fuel with
  | zero => intro mf st h; exact h
  | succ k ih =>
    intro mf st h
    match st with
    | [] => exact h
    | p :: rest =>
      rw [floodLoop_cons]
      exact ih _ _ (floodInv_preserved hwf0 hsx hsy h)

theorem floodInv_start {mf0 : Minefield} {sx sy : Nat}
    (hwf0 : wellFormed mf0) (hsx : sx < mf0.width) (hsy : sy < mf0.height)
    (hk0 : (getSpot mf0 sx sy).kind = SpotKind.Empty 0) :
    floodInv mf0 sx sy (setSpotState mf0 sx sy SpotState.Revealed) [(sx, sy)] := by
  have hmf1self : getSpot (setSpotState mf0 sx sy SpotState.Revealed) sx sy
      = mkRev (getSpot mf0 sx sy) := getSpot_modifySpot_self hwf0 hsx hsy _
  refine ⟨wellFormed_modifySpot hwf0 _ _ _, rfl, rfl, by rw [hmf1self]; rfl,
    fun a b => Or.inl rfl, ?_, ?_⟩
  · intro q hq
    rcases List.mem_cons.1 hq with rfl | hq'
    · exact ⟨Reach.start, hk0, hsx, hsy⟩
    · cases hq'
  · intro a b hr hz hrev
    by_cases hab : a = sx ∧ b = sy
    · obtain ⟨rfl, rfl⟩ := hab
      left
      exact List.mem_cons_self _ _
    · rcases Reach_cases hr with heq | ⟨hhid, -⟩
      · exact absurd heq hab
      · exfalso
        have hra : getSpot (setSpotState mf0 sx sy SpotState.Revealed) a b
            = getSpot mf0 a b := getSpot_modifySpot_ne _ hab
        rw [hra, hhid] at hrev
        cases hrev

theorem flood_characterization {mf0 : Minefield} {sx sy : Nat}
    (hwf0 : wellFormed mf0) (hsx : sx < mf0.width) (hsy : sy < mf0.height)
    (hk0 : (getSpot mf0 sx sy).kind = SpotKind.Empty 0) :
    (∀ a b, Reach mf0 sx sy a b →
      getSpot (floodLoop (mf0.width * mf0.height + 1)
        (setSpotState mf0 sx sy SpotState.Revealed) [(sx, sy)]).1 a b
        = mkRev (getSpot mf0 a b)) ∧
    (∀ a b, ¬Reach mf0 sx sy a b →
      getSpot (floodLoop (mf0.width * mf0.height + 1)
        (setSpotState mf0 sx sy SpotState.Revealed) [(sx, sy)]).1 a b
        = getSpot mf0 a b) := by
  have hmf1self : getSpot (setSpotState mf0 sx sy SpotState.Revealed) sx sy
      = mkRev (getSpot mf0 sx sy) := getSpot_modifySpot_self hwf0 hsx hsy _
  have hwf1 : wellFormed (setSpotState mf0 sx sy SpotState.Revealed) :=
    wellFormed_modifySpot hwf0 _ _ _
  have hterm : (floodLoop (mf0.width * mf0.height + 1)
      (setSpotState mf0 sx sy SpotState.Revealed) [(sx, sy)]).2 = [] := by
    apply floodLoop_term _ _ _ hwf1
    have := hiddenCount_le (setSpotState mf0 sx sy SpotState.Revealed)
    rw [width_setSpotState, height_setSpotState] at this
    simp only [List.length_cons, List.length_nil]
    omega
  have hinvF := floodLoop_inv hwf0 hsx hsy (mf0.width * mf0.height + 1)
    (setSpotState mf0 sx sy SpotState.Revealed) [(sx, sy)]
    (floodInv_start hwf0 hsx hsy hk0)
  rw [hterm] at hinvF
  obtain ⟨Fwf, Fw, Fh, Fstart, Fpt, Fst, Fcomp⟩ := hinvF
  have hcomp : ∀ a b, Reach mf0 sx sy a b →
      getSpot (floodLoop (mf0.width * mf0.height + 1)
        (setSpotState mf0 sx sy SpotState.Revealed) [(sx, sy)]).1 a b
        = mkRev (getSpot mf0 a b) := by
    intro a b hr
    induction hr with
    | start =>
      rcases Fpt sx sy with hl | ⟨-, hv⟩
      · rw [hl, hmf1self]
      · exact hv
    | next hra hza hnb hhid hemp iha =>
      rename_i e f g i
      have hrev : (getSpot (floodLoop (mf0.width * mf0.height + 1)
          (setSpotState mf0 sx sy SpotState.Revealed) [(sx, sy)]).1 e f).state
          = SpotState.Revealed := by rw [iha]; rfl
      rcases Fcomp e f hra hza hrev with hin | hproc
      · cases hin
      · have hnogo := hproc g i hnb
        have hkF : (getSpot (floodLoop (mf0.width * mf0.height + 1)
            (setSpotState mf0 sx sy SpotState.Revealed) [(sx, sy)]).1 g i).kind
            = (getSpot mf0 g i).kind := by
          rcases Fpt g i with hl | ⟨-, hv⟩
          · rw [hl]
            exact kind_setSpotState mf0 sx sy _ g i
          · rw [hv]; rfl
        obtain ⟨n, hn⟩ := hemp
        have hstF : (getSpot (floodLoop (mf0.width * mf0.height + 1)
            (setSpotState mf0 sx sy SpotState.Revealed) [(sx, sy)]).1 g i).state
            ≠ SpotState.Hidden := by
          intro hH
          exact hnogo ⟨hH, ⟨n, by rw [hkF]; exact hn⟩⟩
        rcases Fpt g i with hl | ⟨-, hv⟩
        · by_cases hcd : g = sx ∧ i = sy
          · obtain ⟨rfl, rfl⟩ := hcd
            rw [hl, hmf1self]
          · exfalso
            have hra : getSpot (setSpotState mf0 sx sy SpotState.Revealed) g i
                = getSpot mf0 g i := getSpot_modifySpot_ne _ hcd
            rw [hl, hra] at hstF
            exact hstF hhid
        · exact hv
  refine ⟨hcomp, ?_⟩
  intro a b hnr
  rcases Fpt a b with hl | ⟨hr, -⟩
  · rw [hl]
    apply getSpot_modifySpot_ne
    intro hab
    obtain ⟨rfl, rfl⟩ := hab
    exact hnr Reach.start
  · exact absurd hr hnr

/-- Reading back the spot just written by setSpotState. -/
theorem getSpot_setSpotState_self {mf : Minefield} (hwf : wellFormed mf) {x y : Nat}
    (hx : x < mf.width) (hy : y < mf.height) (s : SpotState) :
    getSpot (setSpotState mf x y s) x y = { getSpot mf x y with state := s } :=
  getSpot_modifySpot_self hwf hx hy _

/-! ## Step equation lemmas -/

theorem spot_some {mf : Minefield} {x y : Nat} (hx : x < mf.width) (hy : y < mf.height) :
    mf.spot x y = some (getSpot mf x y) := by
  simp [Minefield.spot, hx, hy]

theorem spot_none {mf : Minefield} {x y : Nat} (h : ¬(x < mf.width ∧ y < mf.height)) :
    mf.spot x y = none := by
  simp only [Minefield.spot, if_neg h]

theorem step_oob {mf : Minefield} {x y : Nat} (h : ¬(x < mf.width ∧ y < mf.height)) :
    mf.step x y = (mf, StepResult.Invalid) := by
  simp only [Minefield.step, spot_none h]

theorem step_mine {mf : Minefield} {x y : Nat} (hx : x < mf.width) (hy : y < mf.height)
    (hk : (getSpot mf x y).kind = SpotKind.Mine) :
    mf.step x y = (setSpotState mf x y SpotState.Exploded, StepResult.Boom) := by
  simp only [Minefield.step, spot_some hx hy, hk]

theorem step_empty_pos {mf : Minefield} {x y n : Nat} (hx : x < mf.width) (hy : y < mf.height)
    (hk : (getSpot mf x y).kind = SpotKind.Empty n) (hn : n ≠ 0) :
    mf.step x y = (setSpotState mf x y SpotState.Revealed, StepResult.Phew) := by
  simp only [Minefield.step, spot_some hx hy, hk, if_neg hn]

theorem step_empty_zero {mf : Minefield} {x y : Nat} (hx : x < mf.width) (hy : y < mf.height)
    (hk : (getSpot mf x y).kind = SpotKind.Empty 0) :
    mf.step x y = ((floodLoop (mf.width * mf.height + 1)
      (setSpotState mf x y SpotState.Revealed) [(x, y)]).1, StepResult.Phew) := by
  simp only [Minefield.step, spot_some hx hy, hk, if_pos rfl]
  rfl

/-! ## Claim theorems -/

/-- Claim C1: stepping an in-bounds zero-count empty cell returns Phew
and reveals exactly the cells of the Reach relation (the maximal region
reachable from the start through zero-count cells, each step revealing
hidden empty neighbors and expanding only zero-count ones); every cell
outside the region, in particular every mine or flagged cell other than
the start, is left unchanged, so cells beyond a nonzero-count boundary
remain as they were (Hidden ones stay Hidden). -/
theorem C1_step_flood (mf : Minefield) (sx sy : Nat) (hwf : wellFormed mf)
    (hx : sx < mf.width) (hy : sy < mf.height)
    (hk : (getSpot mf sx sy).kind = SpotKind.Empty 0) :
    (mf.step sx sy).2 = StepResult.Phew ∧
    (∀ a b, Reach mf sx sy a b → getSpot (mf.step sx sy).1 a b = mkRev (getSpot mf a b)) ∧
    (∀ a b, ¬Reach mf sx sy a b → getSpot (mf.step sx sy).1 a b = getSpot mf a b) ∧
    (∀ a b, ¬(a = sx ∧ b = sy) →
      ((getSpot mf a b).kind = SpotKind.Mine ∨ (getSpot mf a b).state = SpotState.Flagged) →
      getSpot (mf.step sx sy).1 a b = getSpot mf a b) := by
  have hstep := step_empty_zero hx hy hk
  have hchar := flood_characterization hwf hx hy hk
  refine ⟨by rw [hstep], ?_, ?_, ?_⟩
  · intro a b hr
    rw [hstep]
    exact hchar.1 a b hr
  · intro a b hnr
    rw [hstep]
    exact hchar.2 a b hnr
  · intro a b hne hmf
    rw [hstep]
    apply hchar.2 a b
    intro hr
    rcases Reach_cases hr with heq | ⟨hhid, n, hkn⟩
    · exact hne heq
    · rcases hmf with hm | hf
      · rw [hm] at hkn
        cases hkn
      · rw [hf] at hhid
        cases hhid

/-- Claim C1 witness: on the 3 x 4 example field, stepping the
zero-count cell (0,1) returns Phew and reveals it. -/
theorem C1_step_flood_witness :
    (mfEx.step 0 1).2 = StepResult.Phew ∧
    getSpot (mfEx.step 0 1).1 0 1 = mkRev (getSpot mfEx 0 1) :=
  ⟨(C1_step_flood mfEx 0 1 (by decide) (by decide) (by decide) (by decide)).1,
   (C1_step_flood mfEx 0 1 (by decide) (by decide) (by decide) (by decide)).2.1 0 1 Reach.start⟩

/-- Claim C6: stepping an in-bounds mine cell marks it Exploded and
returns Boom, with no hypothesis on the prior state of the cell, so a
Flagged or already revealed or exploded mine explodes all the same. -/
theorem C6_step_mine_explodes (mf : Minefield) (x y : Nat) (hwf : wellFormed mf)
    (hx : x < mf.width) (hy : y < mf.height)
    (hk : (getSpot mf x y).kind = SpotKind.Mine) :
    mf.step x y = (setSpotState mf x y SpotState.Exploded, StepResult.Boom) ∧
    (getSpot (mf.step x y).1 x y).state = SpotState.Exploded := by
  have hstep := step_mine hx hy hk
  refine ⟨hstep, ?_⟩
  rw [hstep]
  show (getSpot (setSpotState mf x y SpotState.Exploded) x y).state = SpotState.Exploded
  rw [getSpot_setSpotState_self hwf hx hy]

/-- Claim C6 witness: on the 3 x 4 example field with the spot (2,0)
flagged, stepping the mine at (2,0) explodes it and returns Boom. -/
theorem C6_step_mine_explodes_witness :
    ((setSpotState mfEx 2 0 SpotState.Flagged).step 2 0).2 = StepResult.Boom ∧
    (getSpot ((setSpotState mfEx 2 0 SpotState.Flagged).step 2 0).1 2 0).state
      = SpotState.Exploded :=
  ⟨by rw [(C6_step_mine_explodes (setSpotState mfEx 2 0 SpotState.Flagged) 2 0
      (by decide) (by decide) (by decide) (by decide)).1],
   (C6_step_mine_explodes (setSpotState mfEx 2 0 SpotState.Flagged) 2 0
      (by decide) (by decide) (by decide) (by decide)).2⟩

/-- Claim C10: stepping an in-bounds Flagged empty cell is accepted:
it returns Phew and the cell transitions Flagged to Revealed, silently
discarding the flag. -/
theorem C10_step_flagged_empty (mf : Minefield) (x y n : Nat) (hwf : wellFormed mf)
    (hx : x < mf.width) (hy : y < mf.height)
    (hk : (getSpot mf x y).kind = SpotKind.Empty n)
    (hst : (getSpot mf x y).state = SpotState.Flagged) :
    (mf.step x y).2 = StepResult.Phew ∧
    (getSpot (mf.step x y).1 x y).state = SpotState.Revealed := by
  by_cases hn : n = 0
  · subst hn
    have hstep := step_empty_zero hx hy hk
    refine ⟨by rw [hstep], ?_⟩
    rw [hstep]
    have hwf1 : wellFormed (setSpotState mf x y SpotState.Revealed) :=
      wellFormed_modifySpot hwf _ _ _
    have hself : getSpot (setSpotState mf x y SpotState.Revealed) x y
        = mkRev (getSpot mf x y) := getSpot_modifySpot_self hwf hx hy _
    have hmono := floodLoop_mono (mf.width * mf.height + 1)
      (setSpotState mf x y SpotState.Revealed) [(x, y)] hwf1 x y
      (by rw [hself]; simp [mkRev])
    simp only []
    rw [hmono, hself]
    rfl
  · have hstep := step_empty_pos hx hy hk hn
    refine ⟨by rw [hstep], ?_⟩
    rw [hstep]
    show (getSpot (setSpotState mf x y SpotState.Revealed) x y).state = SpotState.Revealed
    rw [getSpot_setSpotState_self hwf hx hy]

/-- Claim C10 witness: on the example field with (0,1) flagged,
stepping (0,1) returns Phew and reveals the cell. -/
theorem C10_step_flagged_empty_witness :
    (mfExFlag.step 0 1).2 = StepResult.Phew ∧
    (getSpot (mfExFlag.step 0 1).1 0 1).state = SpotState.Revealed :=
  C10_step_flagged_empty mfExFlag 0 1 0 (by decide) (by decide) (by decide)
    (by decide) (by decide)

theorem floodNbC_fst : ∀ (l : List (Nat × Nat)) (mf : Minefield) (st : List (Nat × Nat)) (c : Nat),
    (floodNbC mf l st c).1 = floodNb mf l st := by
  intro l
  induction l with
  | nil => intro mf st c; rfl
  | cons p rest ih =>
    intro mf st c
    by_cases hs : (getSpot mf p.1 p.2).state = SpotState.Hidden
    · rcases hk : (getSpot mf p.1 p.2).kind with _ | n
      · rw [floodNb_cons_mine rest st hs hk]
        simp only [floodNbC, if_pos hs, hk]
        exact ih mf st c
      · by_cases hn : n = 0
        · subst hn
          rw [floodNb_cons_zero rest st hs hk]
          simp only [floodNbC, if_pos hs, hk, if_pos rfl]
          exact ih _ (p :: st) (c + 1)
        · rw [floodNb_cons_pos rest st hs hk hn]
          simp only [floodNbC, if_pos hs, hk, if_neg hn]
          exact ih _ st c
    · rw [floodNb_cons_skip rest st hs]
      simp only [floodNbC, if_neg hs]
      exact ih mf st c

theorem floodNbC_count : ∀ (l : List (Nat × Nat)) (mf : Minefield) (st : List (Nat × Nat))
    (c : Nat), wellFormed mf → (∀ p ∈ l, p.1 < mf.width ∧ p.2 < mf.height) →
    (floodNbC mf l st c).2 + hiddenCount (floodNbC mf l st c).1.1 ≤ c + hiddenCount mf := by
  intro l
  induction l with
  | nil => intro mf st c _ _; exact Nat.le_refl _
  | cons p rest ih =>
    intro mf st c hwf hbl
    have hp := hbl p (List.mem_cons_self p rest)
    have hbr : ∀ q ∈ rest, q.1 < mf.width ∧ q.2 < mf.height :=
      fun q hq => hbl q (List.mem_cons_of_mem p hq)
    by_cases hs : (getSpot mf p.1 p.2).state = SpotState.Hidden
    · rcases hk : (getSpot mf p.1 p.2).kind with _ | n
      · simp only [floodNbC, if_pos hs, hk]
        exact ih mf st c hwf hbr
      · have hwf' : wellFormed (setSpotState mf p.1 p.2 SpotState.Revealed) :=
          wellFormed_modifySpot hwf _ _ _
        have hdec := hiddenCount_reveal hwf hp.1 hp.2 hs
        by_cases hn : n = 0
        · subst hn
          simp only [floodNbC, if_pos hs, hk, if_pos rfl, if_true]
          have := ih _ (p :: st) (c + 1) hwf' hbr
          omega
        · simp only [floodNbC, if_pos hs, hk, if_neg hn]
          have := ih _ st c hwf' hbr
          omega
    · simp only [floodNbC, if_neg hs]
      exact ih mf st c hwf hbr

theorem floodLoopC_fst : ∀ (fuel : Nat) (mf : Minefield) (st : List (Nat × Nat)) (c : Nat),
    (floodLoopC fuel mf st c).1 = floodLoop fuel mf st := by
  intro fuel
  induction fuel with
  | zero => intro mf st c; rfl
  | succ k ih =>
    intro mf st c
    match st with
    | [] => rfl
    | p :: rest =>
      rw [floodLoop_cons]
      show (floodLoopC k (floodNbC mf (mf.neighbors_coords p.1 p.2) rest c).1.1
        (floodNbC mf (mf.neighbors_coords p.1 p.2) rest c).1.2
        (floodNbC mf (mf.neighbors_coords p.1 p.2) rest c).2).1 = _
      rw [floodNbC_fst]
      exact ih _ _ _

theorem floodLoopC_count : ∀ (fuel : Nat) (mf : Minefield) (st : List (Nat × Nat)) (c : Nat),
    wellFormed mf →
    (floodLoopC fuel mf st c).2 + hiddenCount (floodLoopC fuel mf st c).1.1
      ≤ c + hiddenCount mf := by
  intro fuel
  induction fuel with
  | zero => intro mf st c _; exact Nat.le_refl _
  | succ k ih =>
    intro mf st c hwf
    match st with
    | [] => exact Nat.le_refl _
    | p :: rest =>
      show (floodLoopC k (floodNbC mf (mf.neighbors_coords p.1 p.2) rest c).1.1
        (floodNbC mf (mf.neighbors_coords p.1 p.2) rest c).1.2
        (floodNbC mf (mf.neighbors_coords p.1 p.2) rest c).2).2
          + hiddenCount (floodLoopC k (floodNbC mf (mf.neighbors_coords p.1 p.2) rest c).1.1
              (floodNbC mf (mf.neighbors_coords p.1 p.2) rest c).1.2
              (floodNbC mf (mf.neighbors_coords p.1 p.2) rest c).2).1.1
          ≤ c + hiddenCount mf
      have hbnd : ∀ q ∈ mf.neighbors_coords p.1 p.2, q.1 < mf.width ∧ q.2 < mf.height :=
        fun q hq => neighbors_coords_inBounds hq
      have hnb := floodNbC_count (mf.neighbors_coords p.1 p.2) mf rest c hwf hbnd
      have hwf' : wellFormed (floodNbC mf (mf.neighbors_coords p.1 p.2) rest c).1.1 := by
        rw [floodNbC_fst]
        exact (floodNb_shape _ mf rest).2.2.2 hwf
      have := ih (floodNbC mf (mf.neighbors_coords p.1 p.2) rest c).1.1
        (floodNbC mf (mf.neighbors_coords p.1 p.2) rest c).1.2
        (floodNbC mf (mf.neighbors_coords p.1 p.2) rest c).2 hwf'
      omega

/-- Claim C5: the flood-fill worklist loop always terminates and never
enqueues a cell twice.  First conjunct: with fuel at least the number
of hidden cells plus the worklist length the loop drains its worklist
completely (so the fuel width*height + 1 used by step always
suffices).  Second conjunct: the instrumented loop computes the same
result as the plain one and its total number of pushes is bounded by
width*height, since a cell is pushed exactly when it flips from Hidden
to Revealed (marking at enqueue time).  Third conjunct: processing one
cell preserves that the worklist has no duplicates and contains only
already-revealed cells, so no cell is ever enqueued or processed
twice. -/
theorem C5_flood_terminates :
    (∀ (fuel : Nat) (mf : Minefield) (st : List (Nat × Nat)),
      wellFormed mf → hiddenCount mf + st.length ≤ fuel →
      (floodLoop fuel mf st).2 = []) ∧
    (∀ (fuel : Nat) (mf : Minefield) (st : List (Nat × Nat)) (c : Nat),
      (floodLoopC fuel mf st c).1 = floodLoop fuel mf st) ∧
    (∀ (fuel : Nat) (mf : Minefield) (st : List (Nat × Nat)),
      wellFormed mf → (floodLoopC fuel mf st 0).2 ≤ mf.width * mf.height) ∧
    (∀ (l st : List (Nat × Nat)) (mf : Minefield),
      wellFormed mf → (∀ p ∈ l, p.1 < mf.width ∧ p.2 < mf.height) →
      st.Nodup → (∀ p ∈ st, (getSpot mf p.1 p.2).state = SpotState.Revealed) →
      (floodNb mf l st).2.Nodup ∧
        ∀ p ∈ (floodNb mf l st).2,
          (getSpot (floodNb mf l st).1 p.1 p.2).state = SpotState.Revealed) := by
  refine ⟨floodLoop_term, floodLoopC_fst, ?_, fun l st mf hwf hbl hnd hrev =>
    floodNb_nodup l mf st hwf hbl hnd hrev⟩
  intro fuel mf st hwf
  have hc := floodLoopC_count fuel mf st 0 hwf
  have hh := hiddenCount_le mf
  omega

/-- Claim C5 witness: on the example field with (0,1) revealed, fuel
13 drains the worklist started at (0,1), the instrumented loop agrees,
and its push count is within 3 * 4. -/
theorem C5_flood_terminates_witness :
    (floodLoop 13 (setSpotState mfEx 0 1 SpotState.Revealed) [(0, 1)]).2 = [] ∧
    (floodLoopC 13 (setSpotState mfEx 0 1 SpotState.Revealed) [(0, 1)] 0).2
      ≤ (setSpotState mfEx 0 1 SpotState.Revealed).width
        * (setSpotState mfEx 0 1 SpotState.Revealed).height :=
  ⟨C5_flood_terminates.1 13 (setSpotState mfEx 0 1 SpotState.Revealed) [(0, 1)]
      (by decide) (by decide),
   C5_flood_terminates.2.2.1 13 (setSpotState mfEx 0 1 SpotState.Revealed) [(0, 1)]
      (by decide)⟩

/-! ## Mine placement lemmas -/

theorem bumpNeighbors_shape : ∀ (l : List (Nat × Nat)) (mf : Minefield),
    (bumpNeighbors mf l).width = mf.width ∧ (bumpNeighbors mf l).height = mf.height ∧
      (bumpNeighbors mf l).mines = mf.mines ∧
      (wellFormed mf → wellFormed (bumpNeighbors mf l)) := by
  intro l
  induction l with
  | nil => intro mf; exact ⟨rfl, rfl, rfl, fun h => h⟩
  | cons p rest ih =>
    intro mf
    have := ih (modifySpot mf p.1 p.2 bumpSpot)
    exact ⟨this.1, this.2.1, this.2.2.1, fun h => this.2.2.2 (wellFormed_modifySpot h _ _ _)⟩

theorem getSpot_bumpNeighbors : ∀ (l : List (Nat × Nat)) (mf : Minefield),
    wellFormed mf → (∀ p ∈ l, p.1 < mf.width ∧ p.2 < mf.height) → l.Nodup →
    ∀ a b, getSpot (bumpNeighbors mf l) a b
      = if (a, b) ∈ l then bumpSpot (getSpot mf a b) else getSpot mf a b := by
  intro l
  induction l with
  | nil => intro mf _ _ _ a b; simp [bumpNeighbors]
  | cons p rest ih =>
    obtain ⟨px, py⟩ := p
    intro mf hwf hbl hnd a b
    have hp := hbl (px, py) (List.mem_cons_self _ rest)
    have hbr : ∀ q ∈ rest, q.1 < mf.width ∧ q.2 < mf.height :=
      fun q hq => hbl q (List.mem_cons_of_mem _ hq)
    have hwf' : wellFormed (modifySpot mf px py bumpSpot) := wellFormed_modifySpot hwf _ _ _
    have hrec := ih (modifySpot mf px py bumpSpot) hwf' hbr (List.Nodup.of_cons hnd) a b
    show getSpot (bumpNeighbors (modifySpot mf px py bumpSpot) rest) a b = _
    by_cases hab : a = px ∧ b = py
    · obtain ⟨rfl, rfl⟩ := hab
      have hpn : (a, b) ∉ rest := by
        intro hmem
        exact (List.nodup_cons.1 hnd).1 hmem
      rw [hrec, if_neg hpn, if_pos (List.mem_cons_self _ _)]
      exact getSpot_modifySpot_self hwf hp.1 hp.2 _
    · have hne : getSpot (modifySpot mf px py bumpSpot) a b = getSpot mf a b :=
        getSpot_modifySpot_ne _ hab
      rw [hrec, hne]
      have hmem : ((a, b) ∈ (px, py) :: rest) ↔ ((a, b) ∈ rest) := by
        rw [List.mem_cons]
        constructor
        · rintro (heq | hmem)
          · exact absurd ⟨congrArg Prod.fst heq, congrArg Prod.snd heq⟩ hab
          · exact hmem
        · exact fun h => Or.inr h
      rw [if_congr hmem rfl rfl]

theorem place_mine_of_mine {mf : Minefield} {x y : Nat}
    (hk : (getSpot mf x y).kind = SpotKind.Mine) : mf.place_mine x y = mf := by
  simp only [Minefield.place_mine, hk]

theorem place_mine_shape (mf : Minefield) (x y : Nat) :
    (mf.place_mine x y).width = mf.width ∧ (mf.place_mine x y).height = mf.height ∧
      (mf.place_mine x y).mines = mf.mines ∧
      (wellFormed mf → wellFormed (mf.place_mine x y)) := by
  rcases hk : (getSpot mf x y).kind with _ | n
  · rw [place_mine_of_mine hk]
    exact ⟨rfl, rfl, rfl, fun h => h⟩
  · have hpl : mf.place_mine x y
        = bumpNeighbors (modifySpot mf x y (fun s => { s with kind := SpotKind.Mine }))
            (mf.neighbors_coords x y) := by
      simp only [Minefield.place_mine, hk]
    rw [hpl]
    have := bumpNeighbors_shape (mf.neighbors_coords x y)
      (modifySpot mf x y (fun s => { s with kind := SpotKind.Mine }))
    exact ⟨this.1, this.2.1, this.2.2.1, fun h => this.2.2.2 (wellFormed_modifySpot h _ _ _)⟩

theorem getSpot_place_mine_empty {mf : Minefield} {x y m : Nat} (hwf : wellFormed mf)
    (hx : x < mf.width) (hy : y < mf.height)
    (hk : (getSpot mf x y).kind = SpotKind.Empty m) :
    ∀ a b, getSpot (mf.place_mine x y) a b
      = if a = x ∧ b = y then { getSpot mf x y with kind := SpotKind.Mine }
        else if (a, b) ∈ mf.neighbors_coords x y then bumpSpot (getSpot mf a b)
        else getSpot mf a b := by
  intro a b
  have hstep : mf.place_mine x y
      = bumpNeighbors (modifySpot mf x y (fun s => { s with kind := SpotKind.Mine }))
          (mf.neighbors_coords x y) := by
    simp only [Minefield.place_mine, hk]
  have hwfM : wellFormed (modifySpot mf x y (fun s => { s with kind := SpotKind.Mine })) :=
    wellFormed_modifySpot hwf _ _ _
  have hbl : ∀ p ∈ mf.neighbors_coords x y,
      p.1 < (modifySpot mf x y (fun s => { s with kind := SpotKind.Mine })).width ∧
        p.2 < (modifySpot mf x y (fun s => { s with kind := SpotKind.Mine })).height :=
    fun p hp => neighbors_coords_inBounds hp
  have hbump := getSpot_bumpNeighbors (mf.neighbors_coords x y)
    (modifySpot mf x y (fun s => { s with kind := SpotKind.Mine })) hwfM hbl
    (nodup_neighborsList _ _ _ _) a b
  rw [hstep, hbump]
  by_cases hab : a = x ∧ b = y
  · obtain ⟨rfl, rfl⟩ := hab
    have hnm : (a, b) ∉ mf.neighbors_coords a b := self_not_mem_neighborsList _ _ _ _
    rw [if_neg hnm, if_pos ⟨rfl, rfl⟩]
    exact getSpot_modifySpot_self hwf hx hy _
  · have hne : getSpot (modifySpot mf x y (fun s => { s with kind := SpotKind.Mine })) a b
        = getSpot mf a b := getSpot_modifySpot_ne _ hab
    rw [hne, if_neg hab]

theorem length_filter_update {l : List (Nat × Nat)} {p p' : Nat × Nat → Bool} {q : Nat × Nat}
    (hnd : l.Nodup) (hagree : ∀ r ∈ l, r ≠ q → p' r = p r)
    (hq1 : p' q = true) (hq0 : p q = false) :
    (l.filter p').length = (l.filter p).length + (if q ∈ l then 1 else 0) := by
  induction l with
  | nil => simp
  | cons r rest ih =>
    have hndr := List.nodup_cons.1 hnd
    by_cases hrq : r = q
    · subst hrq
      have hnotin : r ∉ rest := hndr.1
      have hcong : rest.filter p' = rest.filter p := by
        apply List.filter_congr
        intro s hs
        exact hagree s (List.mem_cons_of_mem r hs) (fun hc => hnotin (hc ▸ hs))
      rw [List.filter_cons, List.filter_cons, hq1, hq0]
      simp only [if_true, Bool.false_eq_true, if_false, hcong, List.length_cons]
      rw [if_pos (List.mem_cons_self r rest)]
    · have hpr : p' r = p r := hagree r (List.mem_cons_self r rest) hrq
      have hrec := ih hndr.2 (fun s hs hsne => hagree s (List.mem_cons_of_mem r hs) hsne)
      have hmemiff : (q ∈ r :: rest) ↔ (q ∈ rest) := by
        simp only [List.mem_cons]
        exact ⟨fun h => h.elim (fun he => absurd he.symm hrq) id, fun h => Or.inr h⟩
      simp only [List.filter_cons, hpr]
      rw [if_congr hmemiff rfl rfl]
      split
      · simp only [List.length_cons]
        omega
      · omega

theorem bumpSpot_mine_iff (s : Spot) :
    ((bumpSpot s).kind = SpotKind.Mine) ↔ (s.kind = SpotKind.Mine) := by
  rcases hk : s.kind with _ | n <;> simp [bumpSpot, hk]

theorem mineNeighborCount_place_mine {mf : Minefield} {x y m : Nat} (hwf : wellFormed mf)
    (hx : x < mf.width) (hy : y < mf.height)
    (hk : (getSpot mf x y).kind = SpotKind.Empty m) (a b : Nat) :
    mineNeighborCount (mf.place_mine x y) a b
      = mineNeighborCount mf a b + (if (x, y) ∈ mf.neighbors_coords a b then 1 else 0) := by
  unfold mineNeighborCount
  have hw := (place_mine_shape mf x y).1
  have hh := (place_mine_shape mf x y).2.1
  have hdims : (mf.place_mine x y).neighbors_coords a b = mf.neighbors_coords a b := by
    unfold Minefield.neighbors_coords
    rw [hw, hh]
  rw [hdims]
  have hchar := getSpot_place_mine_empty hwf hx hy hk
  apply length_filter_update (nodup_neighborsList _ _ _ _)
  · intro r hr hrne
    have hrx : ¬(r.1 = x ∧ r.2 = y) := by
      intro hc
      exact hrne (Prod.ext hc.1 hc.2)
    apply decide_eq_decide.2
    rw [hchar r.1 r.2, if_neg hrx]
    by_cases hmemb : (r.1, r.2) ∈ mf.neighbors_coords x y
    · rw [if_pos hmemb]
      exact bumpSpot_mine_iff _
    · rw [if_neg hmemb]
  · rw [hchar x y, if_pos ⟨rfl, rfl⟩]
    simp
  · rw [hk]
    simp

theorem goodCounts_new (w h : Nat) : goodCounts (Minefield.new w h) := by
  intro x y hx hy n hkn
  rw [getSpot_new] at hkn
  have hkn' : SpotKind.Empty 0 = SpotKind.Empty n := hkn
  have hn0 : n = 0 := (SpotKind.Empty.inj hkn').symm
  subst hn0
  unfold mineNeighborCount
  have : ((Minefield.new w h).neighbors_coords x y).filter
      (fun p => decide ((getSpot (Minefield.new w h) p.1 p.2).kind = SpotKind.Mine)) = [] := by
    apply List.filter_eq_nil_iff.2
    intro p hp
    rw [getSpot_new]
    simp
  rw [this]
  rfl

theorem goodCounts_place_mine {mf : Minefield} {x y : Nat} (hwf : wellFormed mf)
    (hx : x < mf.width) (hy : y < mf.height) (hgc : goodCounts mf) :
    goodCounts (mf.place_mine x y) := by
  rcases hk : (getSpot mf x y).kind with _ | m
  · rw [place_mine_of_mine hk]
    exact hgc
  · intro a b ha hb n hkn
    rw [(place_mine_shape mf x y).1] at ha
    rw [(place_mine_shape mf x y).2.1] at hb
    have hchar := getSpot_place_mine_empty hwf hx hy hk
    have hcnt := mineNeighborCount_place_mine hwf hx hy hk a b
    rw [hchar a b] at hkn
    by_cases hab : a = x ∧ b = y
    · rw [if_pos hab] at hkn
      cases hkn
    · rw [if_neg hab] at hkn
      by_cases hmemb : (a, b) ∈ mf.neighbors_coords x y
      · rw [if_pos hmemb] at hkn
        rcases hkab : (getSpot mf a b).kind with _ | k
        · rw [bumpSpot, hkab] at hkn
          simp only [hkab] at hkn
          cases hkn
        · have hbv : bumpSpot (getSpot mf a b) = { getSpot mf a b with kind := SpotKind.Empty (k + 1) } := by
            rw [bumpSpot, hkab]
          rw [hbv] at hkn
          have hkn' : SpotKind.Empty (k + 1) = SpotKind.Empty n := hkn
          have hnk : n = k + 1 := (SpotKind.Empty.inj hkn').symm
          have hkc := hgc a b ha hb k hkab
          have hsym : ((x, y) ∈ mf.neighbors_coords a b) := by
            have hiff := @neighborsList_symm mf.width mf.height x y a b
              hwf.2.2.2.2.1 hwf.2.2.2.2.2 hx hy ha hb
            exact hiff.1 hmemb
          rw [hcnt, if_pos hsym]
          omega
      · rw [if_neg hmemb] at hkn
        have hkc := hgc a b ha hb n hkn
        have hsym : ¬((x, y) ∈ mf.neighbors_coords a b) := by
          intro hmem
          have hiff := @neighborsList_symm mf.width mf.height x y a b
            hwf.2.2.2.2.1 hwf.2.2.2.2.2 hx hy ha hb
          exact hmemb (hiff.2 hmem)
        rw [hcnt, if_neg hsym]
        omega

/-! ## Kind preservation lemmas -/

theorem kind_floodNb : ∀ (l : List (Nat × Nat)) (mf : Minefield) (st : List (Nat × Nat))
    (a b : Nat), (getSpot (floodNb mf l st).1 a b).kind = (getSpot mf a b).kind := by
  intro l
  induction l with
  | nil => intro mf st a b; rfl
  | cons p rest ih =>
    intro mf st a b
    by_cases hs : (getSpot mf p.1 p.2).state = SpotState.Hidden
    · rcases hk : (getSpot mf p.1 p.2).kind with _ | n
      · rw [floodNb_cons_mine rest st hs hk]
        exact ih mf st a b
      · by_cases hn : n = 0
        · subst hn
          rw [floodNb_cons_zero rest st hs hk, ih _ (p :: st) a b, kind_setSpotState]
        · rw [floodNb_cons_pos rest st hs hk hn, ih _ st a b, kind_setSpotState]
    · rw [floodNb_cons_skip rest st hs]
      exact ih mf st a b

theorem kind_floodLoop : ∀ (fuel : Nat) (mf : Minefield) (st : List (Nat × Nat)) (a b : Nat),
    (getSpot (floodLoop fuel mf st).1 a b).kind = (getSpot mf a b).kind := by
  intro fuel
  induction fuel with
  | zero => intro mf st a b; rfl
  | succ k ih =>
    intro mf st a b
    match st with
    | [] => rfl
    | p :: rest =>
      rw [floodLoop_cons, ih _ _ a b, kind_floodNb]

theorem kind_step (mf : Minefield) (x y a b : Nat) :
    (getSpot (mf.step x y).1 a b).kind = (getSpot mf a b).kind := by
  by_cases hb : x < mf.width ∧ y < mf.height
  · rcases hk : (getSpot mf x y).kind with _ | n
    · rw [step_mine hb.1 hb.2 hk]
      exact kind_setSpotState mf x y _ a b
    · by_cases hn : n = 0
      · subst hn
        rw [step_empty_zero hb.1 hb.2 hk]
        show (getSpot (floodLoop _ _ _).1 a b).kind = _
        rw [kind_floodLoop, kind_setSpotState]
      · rw [step_empty_pos hb.1 hb.2 hk hn]
        exact kind_setSpotState mf x y _ a b
  · rw [step_oob hb]

/-! ## Auto-step equation lemmas -/

theorem autoStepLoop_nil (mf : Minefield) : autoStepLoop mf [] = (mf, StepResult.Phew) := rfl

theorem autoStepLoop_cons_skip {mf : Minefield} {p : Nat × Nat} (rest : List (Nat × Nat))
    (h : (getSpot mf p.1 p.2).state ≠ SpotState.Hidden) :
    autoStepLoop mf (p :: rest) = autoStepLoop mf rest := by
  simp only [autoStepLoop, if_neg h]

theorem autoStepLoop_cons_step {mf : Minefield} {p : Nat × Nat} (rest : List (Nat × Nat))
    (h : (getSpot mf p.1 p.2).state = SpotState.Hidden) :
    autoStepLoop mf (p :: rest)
      = (if (mf.step p.1 p.2).2 ≠ StepResult.Phew then mf.step p.1 p.2
         else autoStepLoop (mf.step p.1 p.2).1 rest) := by
  simp only [autoStepLoop, if_pos h]

theorem auto_step_oob {mf : Minefield} {x y : Nat} (h : ¬(x < mf.width ∧ y < mf.height)) :
    mf.auto_step x y = (mf, StepResult.Invalid) := by
  simp only [Minefield.auto_step, spot_none h]

theorem auto_step_mine {mf : Minefield} {x y : Nat} (hx : x < mf.width) (hy : y < mf.height)
    (hk : (getSpot mf x y).kind = SpotKind.Mine) :
    mf.auto_step x y = (mf, StepResult.Invalid) := by
  simp only [Minefield.auto_step, spot_some hx hy, hk]

theorem auto_step_go {mf : Minefield} {x y n : Nat} (hx : x < mf.width) (hy : y < mf.height)
    (hk : (getSpot mf x y).kind = SpotKind.Empty n)
    (hcond : (getSpot mf x y).state = SpotState.Revealed ∧ flagCount mf x y = n) :
    mf.auto_step x y = autoStepLoop mf (mf.neighbors_coords x y) := by
  simp only [Minefield.auto_step, spot_some hx hy, hk, if_pos hcond]

theorem auto_step_noop {mf : Minefield} {x y n : Nat} (hx : x < mf.width) (hy : y < mf.height)
    (hk : (getSpot mf x y).kind = SpotKind.Empty n)
    (hcond : ¬((getSpot mf x y).state = SpotState.Revealed ∧ flagCount mf x y = n)) :
    mf.auto_step x y = (mf, StepResult.Phew) := by
  simp only [Minefield.auto_step, spot_some hx hy, hk, if_neg hcond]

theorem kind_autoStepLoop : ∀ (l : List (Nat × Nat)) (mf : Minefield) (a b : Nat),
    (getSpot (autoStepLoop mf l).1 a b).kind = (getSpot mf a b).kind := by
  intro l
  induction l with
  | nil => intro mf a b; rfl
  | cons p rest ih =>
    intro mf a b
    by_cases hs : (getSpot mf p.1 p.2).state = SpotState.Hidden
    · rw [autoStepLoop_cons_step rest hs]
      by_cases hr : (mf.step p.1 p.2).2 ≠ StepResult.Phew
      · rw [if_pos hr]
        exact kind_step mf p.1 p.2 a b
      · rw [if_neg hr, ih _ a b, kind_step]
    · rw [autoStepLoop_cons_skip rest hs]
      exact ih mf a b

theorem kind_auto_step (mf : Minefield) (x y a b : Nat) :
    (getSpot (mf.auto_step x y).1 a b).kind = (getSpot mf a b).kind := by
  by_cases hb : x < mf.width ∧ y < mf.height
  · rcases hk : (getSpot mf x y).kind with _ | n
    · rw [auto_step_mine hb.1 hb.2 hk]
    · by_cases hcond : (getSpot mf x y).state = SpotState.Revealed ∧ flagCount mf x y = n
      · rw [auto_step_go hb.1 hb.2 hk hcond]
        exact kind_autoStepLoop _ mf a b
      · rw [auto_step_noop hb.1 hb.2 hk hcond]
  · rw [auto_step_oob hb]

/-! ## Toggle-flag equation lemmas -/

theorem toggle_flag_oob {mf : Minefield} {x y : Nat} (h : ¬(x < mf.width ∧ y < mf.height)) :
    mf.toggle_flag x y = (mf, FlagToggleResult.None) := by
  simp only [Minefield.toggle_flag, spot_none h]

theorem toggle_flag_hidden {mf : Minefield} {x y : Nat} (hx : x < mf.width) (hy : y < mf.height)
    (hs : (getSpot mf x y).state = SpotState.Hidden) :
    mf.toggle_flag x y = (setSpotState mf x y SpotState.Flagged, FlagToggleResult.Added) := by
  simp only [Minefield.toggle_flag, spot_some hx hy, hs]

theorem toggle_flag_flagged {mf : Minefield} {x y : Nat} (hx : x < mf.width) (hy : y < mf.height)
    (hs : (getSpot mf x y).state = SpotState.Flagged) :
    mf.toggle_flag x y = (setSpotState mf x y SpotState.Hidden, FlagToggleResult.Removed) := by
  simp only [Minefield.toggle_flag, spot_some hx hy, hs]

theorem toggle_flag_revealed {mf : Minefield} {x y : Nat} (hx : x < mf.width) (hy : y < mf.height)
    (hs : (getSpot mf x y).state = SpotState.Revealed) :
    mf.toggle_flag x y = (mf, FlagToggleResult.None) := by
  simp only [Minefield.toggle_flag, spot_some hx hy, hs]

theorem toggle_flag_exploded {mf : Minefield} {x y : Nat} (hx : x < mf.width) (hy : y < mf.height)
    (hs : (getSpot mf x y).state = SpotState.Exploded) :
    mf.toggle_flag x y = (mf, FlagToggleResult.None) := by
  simp only [Minefield.toggle_flag, spot_some hx hy, hs]

theorem kind_toggle_flag (mf : Minefield) (x y a b : Nat) :
    (getSpot (mf.toggle_flag x y).1 a b).kind = (getSpot mf a b).kind := by
  by_cases hb : x < mf.width ∧ y < mf.height
  · rcases hs : (getSpot mf x y).state with _ | _ | _ | _
    · rw [toggle_flag_hidden hb.1 hb.2 hs]
      exact kind_setSpotState mf x y _ a b
    · rw [toggle_flag_revealed hb.1 hb.2 hs]
    · rw [toggle_flag_flagged hb.1 hb.2 hs]
      exact kind_setSpotState mf x y _ a b
    · rw [toggle_flag_exploded hb.1 hb.2 hs]
  · rw [toggle_flag_oob hb]

theorem goodCounts_fold : ∀ (placements : List (Nat × Nat)) (mf : Minefield),
    wellFormed mf → goodCounts mf →
    (∀ p ∈ placements, p.1 < mf.width ∧ p.2 < mf.height) →
    wellFormed (placements.foldl (fun acc p => acc.place_mine p.1 p.2) mf) ∧
      goodCounts (placements.foldl (fun acc p => acc.place_mine p.1 p.2) mf) := by
  intro placements
  induction placements with
  | nil => intro mf hwf hgc _; exact ⟨hwf, hgc⟩
  | cons p rest ih =>
    intro mf hwf hgc hbl
    have hp := hbl p (List.mem_cons_self p rest)
    have hshape := place_mine_shape mf p.1 p.2
    apply ih (mf.place_mine p.1 p.2) (hshape.2.2.2 hwf)
      (goodCounts_place_mine hwf hp.1 hp.2 hgc)
    intro q hq
    rw [hshape.1, hshape.2.1]
    exact hbl q (List.mem_cons_of_mem p hq)

theorem mineNeighborCount_le (mf : Minefield) (x y : Nat) :
    mineNeighborCount mf x y ≤ 8 := by
  unfold mineNeighborCount
  calc ((mf.neighbors_coords x y).filter _).length
      ≤ (mf.neighbors_coords x y).length := List.length_filter_le _ _
    _ ≤ 8 := length_neighborsList_le _ _ _ _

/-- Claim C3: on any field built by new followed by any sequence of
in-bounds place_mine calls, every Empty spot records exactly its
number of mine neighbors; that count is always at most 8; the kind of
every cell is unchanged by step, auto_step and toggle_flag; and on the
3 x 4 field with a single mine at (2,0) the spots (1,0), (1,1), (2,1)
hold Empty 1 and every other non-mine spot holds Empty 0. -/
theorem C3_neighbor_count_invariant :
    (∀ (w h : Nat) (placements : List (Nat × Nat)), w ≤ 65535 → h ≤ 65535 →
      (∀ p ∈ placements,
        p.1 < (Minefield.new w h).width ∧ p.2 < (Minefield.new w h).height) →
      goodCounts (placements.foldl (fun acc p => acc.place_mine p.1 p.2)
        (Minefield.new w h))) ∧
    (∀ (mf : Minefield) (x y : Nat), mineNeighborCount mf x y ≤ 8) ∧
    (∀ (mf : Minefield) (x y a b : Nat),
      (getSpot (mf.step x y).1 a b).kind = (getSpot mf a b).kind) ∧
    (∀ (mf : Minefield) (x y a b : Nat),
      (getSpot (mf.auto_step x y).1 a b).kind = (getSpot mf a b).kind) ∧
    (∀ (mf : Minefield) (x y a b : Nat),
      (getSpot (mf.toggle_flag x y).1 a b).kind = (getSpot mf a b).kind) ∧
    (∀ x y, x < 3 → y < 4 → ¬(x = 2 ∧ y = 0) →
      (getSpot ((Minefield.new 3 4).place_mine 2 0) x y).kind
        = (if (x = 1 ∧ y = 0) ∨ (x = 1 ∧ y = 1) ∨ (x = 2 ∧ y = 1) then SpotKind.Empty 1
           else SpotKind.Empty 0)) := by
  refine ⟨?_, mineNeighborCount_le, kind_step, kind_auto_step, kind_toggle_flag, ?_⟩
  · intro w h placements hw hh hbl
    exact (goodCounts_fold placements (Minefield.new w h) (wellFormed_new hw hh)
      (goodCounts_new w h) hbl).2
  · intro x y hx hy hne
    revert hne
    interval_cases x <;> interval_cases y <;> decide

/-- Claim C3 witness: the invariant instantiated on the 3 x 4 example
field with mines at (2,0) and (0,3). -/
theorem C3_neighbor_count_invariant_witness :
    goodCounts (([(2, 0), (0, 3)] : List (Nat × Nat)).foldl
      (fun acc p => acc.place_mine p.1 p.2) (Minefield.new 3 4)) :=
  C3_neighbor_count_invariant.1 3 4 [(2, 0), (0, 3)] (by decide) (by decide) (by decide)

/-! ## Cleared-state characterization -/

theorem getSpot_eq_getElem {mf : Minefield} {x y : Nat}
    (hxl : x < mf.field.length) (hyl : y < (mf.field[x]).length) :
    getSpot mf x y = (mf.field[x])[y] := by
  rw [getSpot_def, List.getElem?_eq_getElem hxl]
  simp only [Option.getD_some]
  rw [List.getElem?_eq_getElem hyl]
  rfl

/-- Claim C7: is_cleared is true exactly when every mine spot is
Flagged and every empty spot is Revealed; it is false as soon as one
mine is unflagged or one empty spot is unrevealed. -/
theorem C7_is_cleared_iff (mf : Minefield) (hwf : wellFormed mf) :
    (mf.is_cleared = true ↔
      (∀ x y, x < mf.width → y < mf.height →
        ((getSpot mf x y).kind = SpotKind.Mine →
          (getSpot mf x y).state = SpotState.Flagged) ∧
        (∀ n, (getSpot mf x y).kind = SpotKind.Empty n →
          (getSpot mf x y).state = SpotState.Revealed))) ∧
    (∀ x y, x < mf.width → y < mf.height →
      (((getSpot mf x y).kind = SpotKind.Mine ∧
          (getSpot mf x y).state ≠ SpotState.Flagged) ∨
        ((∃ n, (getSpot mf x y).kind = SpotKind.Empty n) ∧
          (getSpot mf x y).state ≠ SpotState.Revealed)) →
      mf.is_cleared = false) := by
  obtain ⟨h1, h2, -⟩ := hwf
  have hpred : ∀ s : Spot,
      ((match s.kind with
        | SpotKind.Mine => decide (s.state = SpotState.Flagged)
        | SpotKind.Empty _ => decide (s.state = SpotState.Revealed)) = true)
      ↔ ((s.kind = SpotKind.Mine → s.state = SpotState.Flagged) ∧
          (∀ n, s.kind = SpotKind.Empty n → s.state = SpotState.Revealed)) := by
    rintro ⟨k, st⟩
    rcases k with _ | n <;> simp
  have hmain : mf.is_cleared = true ↔
      (∀ x y, x < mf.width → y < mf.height →
        ((getSpot mf x y).kind = SpotKind.Mine →
          (getSpot mf x y).state = SpotState.Flagged) ∧
        (∀ n, (getSpot mf x y).kind = SpotKind.Empty n →
          (getSpot mf x y).state = SpotState.Revealed)) := by
    unfold Minefield.is_cleared
    rw [List.all_eq_true]
    constructor
    · intro hall x y hx hy
      have hxl : x < mf.field.length := by omega
      have hcol := hall (mf.field[x]) (List.getElem_mem hxl)
      rw [List.all_eq_true] at hcol
      have hyl : y < (mf.field[x]).length := by
        rw [h2 _ (List.getElem_mem hxl)]; omega
      have hs := hcol ((mf.field[x])[y]) (List.getElem_mem hyl)
      rw [← getSpot_eq_getElem hxl hyl] at hs
      exact (hpred _).1 hs
    · intro hall col hcol
      rw [List.all_eq_true]
      intro s hs
      obtain ⟨x, hxl, rfl⟩ := List.mem_iff_getElem.1 hcol
      obtain ⟨y, hyl, rfl⟩ := List.mem_iff_getElem.1 hs
      have hx : x < mf.width := by omega
      have hy : y < mf.height := by
        have := h2 _ (List.getElem_mem hxl)
        omega
      rw [← getSpot_eq_getElem hxl hyl]
      exact (hpred _).2 (hall x y hx hy)
  refine ⟨hmain, ?_⟩
  intro x y hx hy hbad
  rcases hcl : mf.is_cleared with _ | _
  · rfl
  · exfalso
    have := hmain.1 hcl x y hx hy
    rcases hbad with ⟨hm, hnf⟩ | ⟨⟨n, he⟩, hnr⟩
    · exact hnf (this.1 hm)
    · exact hnr (this.2 n he)

/-- Claim C7 witness: the characterization instantiated on the 3 x 4
example field, on which is_cleared is false since its mines are
unflagged. -/
theorem C7_is_cleared_iff_witness :
    (mfEx.is_cleared = true ↔
      (∀ x y, x < mfEx.width → y < mfEx.height →
        ((getSpot mfEx x y).kind = SpotKind.Mine →
          (getSpot mfEx x y).state = SpotState.Flagged) ∧
        (∀ n, (getSpot mfEx x y).kind = SpotKind.Empty n →
          (getSpot mfEx x y).state = SpotState.Revealed))) ∧
    mfEx.is_cleared = false :=
  ⟨(C7_is_cleared_iff mfEx (by decide)).1,
   (C7_is_cleared_iff mfEx (by decide)).2 2 0 (by decide) (by decide)
     (Or.inl ⟨by decide, by decide⟩)⟩

/-- Claim C8: toggle_flag turns an in-bounds Hidden spot into Flagged
returning Added, turns an in-bounds Flagged spot back into Hidden
returning Removed, and on Revealed or Exploded spots or out-of-bounds
coordinates returns None leaving every spot unchanged; the two
mutating cases change no spot other than the target. -/
theorem C8_toggle_flag_cases :
    (∀ (mf : Minefield) (x y : Nat), wellFormed mf → x < mf.width → y < mf.height →
      (getSpot mf x y).state = SpotState.Hidden →
      mf.toggle_flag x y = (setSpotState mf x y SpotState.Flagged, FlagToggleResult.Added) ∧
      (getSpot (mf.toggle_flag x y).1 x y).state = SpotState.Flagged ∧
      (∀ a b, ¬(a = x ∧ b = y) → getSpot (mf.toggle_flag x y).1 a b = getSpot mf a b)) ∧
    (∀ (mf : Minefield) (x y : Nat), wellFormed mf → x < mf.width → y < mf.height →
      (getSpot mf x y).state = SpotState.Flagged →
      mf.toggle_flag x y = (setSpotState mf x y SpotState.Hidden, FlagToggleResult.Removed) ∧
      (getSpot (mf.toggle_flag x y).1 x y).state = SpotState.Hidden ∧
      (∀ a b, ¬(a = x ∧ b = y) → getSpot (mf.toggle_flag x y).1 a b = getSpot mf a b)) ∧
    (∀ (mf : Minefield) (x y : Nat), x < mf.width → y < mf.height →
      ((getSpot mf x y).state = SpotState.Revealed ∨
        (getSpot mf x y).state = SpotState.Exploded) →
      mf.toggle_flag x y = (mf, FlagToggleResult.None)) ∧
    (∀ (mf : Minefield) (x y : Nat), ¬(x < mf.width ∧ y < mf.height) →
      mf.toggle_flag x y = (mf, FlagToggleResult.None)) := by
  refine ⟨?_, ?_, ?_, fun mf x y h => toggle_flag_oob h⟩
  · intro mf x y hwf hx hy hs
    have heq := toggle_flag_hidden hx hy hs
    refine ⟨heq, ?_, ?_⟩
    · rw [heq]
      show (getSpot (setSpotState mf x y SpotState.Flagged) x y).state = SpotState.Flagged
      rw [getSpot_setSpotState_self hwf hx hy]
    · intro a b hab
      rw [heq]
      exact getSpot_modifySpot_ne _ hab
  · intro mf x y hwf hx hy hs
    have heq := toggle_flag_flagged hx hy hs
    refine ⟨heq, ?_, ?_⟩
    · rw [heq]
      show (getSpot (setSpotState mf x y SpotState.Hidden) x y).state = SpotState.Hidden
      rw [getSpot_setSpotState_self hwf hx hy]
    · intro a b hab
      rw [heq]
      exact getSpot_modifySpot_ne _ hab
  · intro mf x y hx hy hs
    rcases hs with hs | hs
    · exact toggle_flag_revealed hx hy hs
    · exact toggle_flag_exploded hx hy hs

/-- Claim C8 witness: on the example field, flagging the Hidden spot
(1,1) yields Added and Flagged, and toggling it again removes the
flag. -/
theorem C8_toggle_flag_cases_witness :
    (getSpot (mfEx.toggle_flag 1 1).1 1 1).state = SpotState.Flagged ∧
    (mfExFlag.toggle_flag 0 1).2 = FlagToggleResult.Removed ∧
    (mfEx.toggle_flag 9 9).2 = FlagToggleResult.None :=
  ⟨(C8_toggle_flag_cases.1 mfEx 1 1 (by decide) (by decide) (by decide) (by decide)).2.1,
   by rw [(C8_toggle_flag_cases.2.1 mfExFlag 0 1 (by decide) (by decide) (by decide)
       (by decide)).1],
   by rw [C8_toggle_flag_cases.2.2.2 mfEx 9 9 (by decide)]⟩

/-- Claim C9: every operation rejects out-of-bounds coordinates with
its error value and leaves the field untouched: step and auto_step
return the unchanged field with Invalid, toggle_flag returns it with
None, and spot returns none; the only silent input correction is
construction clamping a zero dimension up to one, so new 0 h equals
new 1 h and new w 0 equals new w 1. -/
theorem C9_out_of_bounds_rejected :
    (∀ (mf : Minefield) (x y : Nat), ¬(x < mf.width ∧ y < mf.height) →
      mf.step x y = (mf, StepResult.Invalid) ∧
      mf.auto_step x y = (mf, StepResult.Invalid) ∧
      mf.toggle_flag x y = (mf, FlagToggleResult.None) ∧
      mf.spot x y = none) ∧
    (∀ h : Nat, Minefield.new 0 h = Minefield.new 1 h) ∧
    (∀ w : Nat, Minefield.new w 0 = Minefield.new w 1) := by
  refine ⟨?_, ?_, ?_⟩
  · intro mf x y hb
    exact ⟨step_oob hb, auto_step_oob hb, toggle_flag_oob hb, spot_none hb⟩
  · intro h
    simp [Minefield.new]
  · intro w
    simp [Minefield.new]

/-- Claim C9 witness: on the example field the coordinate (3,0) is out
of bounds and every operation rejects it, and the clamping equalities
at dimension zero. -/
theorem C9_out_of_bounds_rejected_witness :
    (mfEx.step 3 0 = (mfEx, StepResult.Invalid) ∧
      mfEx.auto_step 3 0 = (mfEx, StepResult.Invalid) ∧
      mfEx.toggle_flag 3 0 = (mfEx, FlagToggleResult.None) ∧
      mfEx.spot 3 0 = none) ∧
    Minefield.new 0 7 = Minefield.new 1 7 ∧
    Minefield.new 7 0 = Minefield.new 7 1 :=
  ⟨C9_out_of_bounds_rejected.1 mfEx 3 0 (by decide),
   C9_out_of_bounds_rejected.2.1 7, C9_out_of_bounds_rejected.2.2 7⟩

/-! ## Auto-step lemmas -/

theorem step_shape (mf : Minefield) (x y : Nat) :
    (mf.step x y).1.width = mf.width ∧ (mf.step x y).1.height = mf.height ∧
      (wellFormed mf → wellFormed (mf.step x y).1) := by
  by_cases hb : x < mf.width ∧ y < mf.height
  · rcases hk : (getSpot mf x y).kind with _ | n
    · rw [step_mine hb.1 hb.2 hk]
      exact ⟨rfl, rfl, fun h => wellFormed_modifySpot h _ _ _⟩
    · by_cases hn : n = 0
      · subst hn
        rw [step_empty_zero hb.1 hb.2 hk]
        have := floodLoop_shape (mf.width * mf.height + 1)
          (setSpotState mf x y SpotState.Revealed) [(x, y)]
        exact ⟨this.1, this.2.1, fun h => this.2.2.2 (wellFormed_modifySpot h _ _ _)⟩
      · rw [step_empty_pos hb.1 hb.2 hk hn]
        exact ⟨rfl, rfl, fun h => wellFormed_modifySpot h _ _ _⟩
  · rw [step_oob hb]
    exact ⟨rfl, rfl, fun h => h⟩

theorem step_ne_invalid {mf : Minefield} {x y : Nat} (hx : x < mf.width) (hy : y < mf.height) :
    (mf.step x y).2 ≠ StepResult.Invalid := by
  rcases hk : (getSpot mf x y).kind with _ | n
  · rw [step_mine hx hy hk]
    exact fun h => by cases h
  · by_cases hn : n = 0
    · subst hn
      rw [step_empty_zero hx hy hk]
      exact fun h => by cases h
    · rw [step_empty_pos hx hy hk hn]
      exact fun h => by cases h

theorem autoStepLoop_ne_invalid : ∀ (l : List (Nat × Nat)) (mf : Minefield),
    (∀ p ∈ l, p.1 < mf.width ∧ p.2 < mf.height) →
    (autoStepLoop mf l).2 ≠ StepResult.Invalid := by
  intro l
  induction l with
  | nil => intro mf _ h; cases h
  | cons p rest ih =>
    intro mf hbl
    have hp := hbl p (List.mem_cons_self p rest)
    have hbr : ∀ q ∈ rest, q.1 < mf.width ∧ q.2 < mf.height :=
      fun q hq => hbl q (List.mem_cons_of_mem p hq)
    by_cases hs : (getSpot mf p.1 p.2).state = SpotState.Hidden
    · rw [autoStepLoop_cons_step rest hs]
      by_cases hr : (mf.step p.1 p.2).2 ≠ StepResult.Phew
      · rw [if_pos hr]
        exact step_ne_invalid hp.1 hp.2
      · rw [if_neg hr]
        apply ih
        intro q hq
        rw [(step_shape mf p.1 p.2).1, (step_shape mf p.1 p.2).2.1]
        exact hbr q hq
    · rw [autoStepLoop_cons_skip rest hs]
      exact ih mf hbr

/-- Claim C4: auto_step returns Invalid exactly on out-of-bounds or
mine-kind targets; on an in-bounds empty target that is not Revealed
or whose flagged-neighbor count differs from its mine count it is a
no-op returning Phew; otherwise it runs the neighbor loop, and that
loop steps every currently-Hidden neighbor in iteration order,
returning a Boom immediately, the remaining neighbors unprocessed. -/
theorem C4_auto_step_spec :
    (∀ (mf : Minefield) (x y : Nat),
      ((mf.auto_step x y).2 = StepResult.Invalid ↔
        (¬(x < mf.width ∧ y < mf.height) ∨ (getSpot mf x y).kind = SpotKind.Mine))) ∧
    (∀ (mf : Minefield) (x y n : Nat), x < mf.width → y < mf.height →
      (getSpot mf x y).kind = SpotKind.Empty n →
      ((getSpot mf x y).state ≠ SpotState.Revealed ∨ flagCount mf x y ≠ n) →
      mf.auto_step x y = (mf, StepResult.Phew)) ∧
    (∀ (mf : Minefield) (x y n : Nat), x < mf.width → y < mf.height →
      (getSpot mf x y).kind = SpotKind.Empty n →
      (getSpot mf x y).state = SpotState.Revealed → flagCount mf x y = n →
      mf.auto_step x y = autoStepLoop mf (mf.neighbors_coords x y)) ∧
    (∀ (mf : Minefield) (p : Nat × Nat) (rest : List (Nat × Nat)),
      p.1 < mf.width → p.2 < mf.height →
      autoStepLoop mf (p :: rest)
        = if (getSpot mf p.1 p.2).state = SpotState.Hidden then
            (if (getSpot mf p.1 p.2).kind = SpotKind.Mine then
              (setSpotState mf p.1 p.2 SpotState.Exploded, StepResult.Boom)
            else autoStepLoop (mf.step p.1 p.2).1 rest)
          else autoStepLoop mf rest) := by
  refine ⟨?_, ?_, ?_, ?_⟩
  · intro mf x y
    constructor
    · intro hinv
      by_cases hb : x < mf.width ∧ y < mf.height
      · right
        rcases hk : (getSpot mf x y).kind with _ | n
        · rfl
        · exfalso
          by_cases hcond : (getSpot mf x y).state = SpotState.Revealed ∧ flagCount mf x y = n
          · rw [auto_step_go hb.1 hb.2 hk hcond] at hinv
            exact autoStepLoop_ne_invalid _ mf
              (fun q hq => neighbors_coords_inBounds hq) hinv
          · rw [auto_step_noop hb.1 hb.2 hk hcond] at hinv
            cases hinv
      · left; exact hb
    · intro hor
      rcases hor with hb | hk
      · rw [auto_step_oob hb]
      · by_cases hb : x < mf.width ∧ y < mf.height
        · rw [auto_step_mine hb.1 hb.2 hk]
        · rw [auto_step_oob hb]
  · intro mf x y n hx hy hk hbad
    apply auto_step_noop hx hy hk
    intro hcond
    rcases hbad with hb | hb
    · exact hb hcond.1
    · exact hb hcond.2
  · intro mf x y n hx hy hk hrev hfl
    exact auto_step_go hx hy hk ⟨hrev, hfl⟩
  · intro mf p rest hx hy
    by_cases hs : (getSpot mf p.1 p.2).state = SpotState.Hidden
    · rw [autoStepLoop_cons_step rest hs, if_pos hs]
      rcases hk : (getSpot mf p.1 p.2).kind with _ | n
      · rw [step_mine hx hy hk]
        simp
      · have hphew : (mf.step p.1 p.2).2 = StepResult.Phew := by
          by_cases hn : n = 0
          · subst hn
            rw [step_empty_zero hx hy hk]
          · rw [step_empty_pos hx hy hk hn]
        rw [if_neg (by rw [hphew]; exact fun h => h rfl)]
        rw [if_neg (fun h => by cases h)]
    · rw [autoStepLoop_cons_skip rest hs, if_neg hs]

/-- Claim C4 witness: after revealing (1,2) on the example field and
flagging its mine neighbor, auto_step on out-of-bounds and mine
targets is Invalid, on an unsatisfied cell a no-op, and the loop
unfolding at the mine neighbor (2,0) of (1,1) returns Boom. -/
theorem C4_auto_step_spec_witness :
    ((mfEx.auto_step 5 5).2 = StepResult.Invalid ↔
      (¬(5 < mfEx.width ∧ 5 < mfEx.height) ∨ (getSpot mfEx 5 5).kind = SpotKind.Mine)) ∧
    mfEx.auto_step 1 2 = (mfEx, StepResult.Phew) ∧
    autoStepLoop mfEx [(2, 0)]
      = (setSpotState mfEx 2 0 SpotState.Exploded, StepResult.Boom) :=
  ⟨C4_auto_step_spec.1 mfEx 5 5,
   C4_auto_step_spec.2.1 mfEx 1 2 1 (by decide) (by decide) (by decide)
     (Or.inl (by decide)),
   by
     rw [C4_auto_step_spec.2.2.2 mfEx (2, 0) [] (by decide) (by decide)]
     rw [if_pos (by decide), if_pos (by decide)]⟩

/-! ## Mine placement loop lemmas -/

theorem swapRemove_perm (l : List Nat) (i : Nat) (hi : i < l.length) :
    ((swapRemove l i).1 :: (swapRemove l i).2).Perm l := by
  have hne : l ≠ [] := by
    intro h
    rw [h] at hi
    cases hi
  obtain ⟨dl, g, rfl⟩ : ∃ dl g, l = dl ++ [g] :=
    ⟨l.dropLast, l.getLast hne, (List.dropLast_concat_getLast hne).symm⟩
  have hlast : ((dl ++ [g]).getLast?).getD 0 = g := by
    rw [List.getLast?_concat]
    rfl
  show ((dl ++ [g]).getD i 0
    :: ((dl ++ [g]).set i (((dl ++ [g]).getLast?).getD 0)).dropLast).Perm (dl ++ [g])
  rw [hlast, List.getD_eq_getElem _ 0 hi]
  by_cases hilt : i < dl.length
  · rw [List.set_append_left i g hilt, List.dropLast_concat]
    have hvi : (dl ++ [g])[i] = dl[i] := List.getElem_append_left hilt
    rw [hvi]
    have hsplit : dl.set i g = dl.take i ++ g :: dl.drop (i + 1) := by
      rw [List.set_eq_take_append_cons_drop, if_pos hilt]
    rw [hsplit]
    have h1 : (dl[i] :: (dl.take i ++ g :: dl.drop (i + 1))).Perm
        (dl.take i ++ dl[i] :: (g :: dl.drop (i + 1))) := List.perm_middle.symm
    apply h1.trans
    conv_rhs => rw [← List.take_append_drop i dl, ← List.getElem_cons_drop dl i hilt]
    rw [List.append_assoc, List.cons_append]
    apply List.Perm.append_left
    apply List.Perm.cons
    exact (List.perm_append_singleton _ _).symm
  · have hlen : (dl ++ [g]).length = dl.length + 1 := by simp
    have hieq : i = dl.length := by omega
    subst hieq
    rw [List.set_append_right dl.length g (le_refl _)]
    simp only [Nat.sub_self]
    have hset0 : [g].set 0 g = [g] := rfl
    rw [hset0, List.dropLast_concat]
    have hvi : (dl ++ [g])[dl.length] = g := List.getElem_concat_length dl g dl.length rfl hi
    rw [hvi]
    exact (List.perm_append_singleton _ _).symm

theorem swapRemove_val {l : List Nat} {i : Nat} (hi : i < l.length) :
    (swapRemove l i).1 ∈ l :=
  (swapRemove_perm l i hi).mem_iff.1 (List.mem_cons_self _ _)

theorem swapRemove_length {l : List Nat} {i : Nat} (hi : i < l.length) :
    (swapRemove l i).2.length + 1 = l.length := by
  have := (swapRemove_perm l i hi).length_eq
  simp only [List.length_cons] at this
  omega

theorem swapRemove_nodup {l : List Nat} {i : Nat} (hi : i < l.length) (hnd : l.Nodup) :
    (swapRemove l i).2.Nodup ∧ (swapRemove l i).1 ∉ (swapRemove l i).2 := by
  have hn2 : ((swapRemove l i).1 :: (swapRemove l i).2).Nodup :=
    (swapRemove_perm l i hi).nodup_iff.2 hnd
  have := List.nodup_cons.1 hn2
  exact ⟨this.2, this.1⟩

theorem swapRemove_mem {l : List Nat} {i : Nat} (hi : i < l.length) :
    ∀ x ∈ (swapRemove l i).2, x ∈ l := by
  intro x hx
  exact (swapRemove_perm l i hi).mem_iff.1 (List.mem_cons_of_mem _ hx)

theorem countSpots_congr {mf mf' : Minefield} (hw : mf'.width = mf.width)
    (hh : mf'.height = mf.height) (p : Spot → Bool)
    (hpt : ∀ a b, a < mf.width → b < mf.height → p (getSpot mf' a b) = p (getSpot mf a b)) :
    countSpots mf' p = countSpots mf p := by
  unfold countSpots
  rw [hw, hh]
  apply congrArg
  apply List.map_congr_left
  intro a ha
  apply congrArg
  apply List.map_congr_left
  intro b hb
  rw [List.mem_range] at ha hb
  rw [hpt a b ha hb]

theorem getSpot_mines_set (mf : Minefield) (c x y : Nat) :
    getSpot { mf with mines := c } x y = getSpot mf x y := rfl

theorem mineCount_place_mine {mf : Minefield} {x y m : Nat} (hwf : wellFormed mf)
    (hx : x < mf.width) (hy : y < mf.height)
    (hk : (getSpot mf x y).kind = SpotKind.Empty m) :
    mineCount (mf.place_mine x y) = mineCount mf + 1 := by
  have hchar := getSpot_place_mine_empty hwf hx hy hk
  have hshape := place_mine_shape mf x y
  have hcongr : countSpots (mf.place_mine x y) (fun s => decide (s.kind = SpotKind.Mine))
      = countSpots (modifySpot mf x y (fun s => { s with kind := SpotKind.Mine }))
          (fun s => decide (s.kind = SpotKind.Mine)) := by
    apply countSpots_congr
    · exact hshape.1
    · exact hshape.2.1
    · intro a b ha hb
      rw [hchar a b, getSpot_modifySpot hwf hx hy _ a b]
      by_cases hab : a = x ∧ b = y
      · rw [if_pos hab, if_pos hab]
      · rw [if_neg hab, if_neg hab]
        by_cases hmemb : (a, b) ∈ mf.neighbors_coords x y
        · rw [if_pos hmemb]
          exact decide_eq_decide.2 (bumpSpot_mine_iff _)
        · rw [if_neg hmemb]
  have hmod := countSpots_modifySpot hwf hx hy
    (fun s => { s with kind := SpotKind.Mine }) (fun s => decide (s.kind = SpotKind.Mine))
  simp [hk] at hmod
  unfold mineCount
  rw [hcongr]
  omega

theorem mineCount_new (w h c : Nat) : mineCount { Minefield.new w h with mines := c } = 0 := by
  unfold mineCount countSpots
  have hz : ∀ a b : Nat,
      (if decide ((getSpot { Minefield.new w h with mines := c } a b).kind = SpotKind.Mine)
          = true then 1 else 0) = 0 := by
    intro a b
    rw [getSpot_mines_set, getSpot_new]
    simp
  have hin : ∀ a : Nat, ((List.range { Minefield.new w h with mines := c }.height).map
      (fun b => if decide ((getSpot { Minefield.new w h with mines := c } a b).kind
        = SpotKind.Mine) = true then 1 else 0)).sum = 0 := by
    intro a
    have : ((List.range { Minefield.new w h with mines := c }.height).map
        (fun b => if decide ((getSpot { Minefield.new w h with mines := c } a b).kind
          = SpotKind.Mine) = true then 1 else 0))
        = (List.range { Minefield.new w h with mines := c }.height).map (fun _ => 0) := by
      apply List.map_congr_left
      intro b _
      exact hz a b
    rw [this]
    simp
  have : ((List.range { Minefield.new w h with mines := c }.width).map
      (fun a => ((List.range { Minefield.new w h with mines := c }.height).map
        (fun b => if decide ((getSpot { Minefield.new w h with mines := c } a b).kind
          = SpotKind.Mine) = true then 1 else 0)).sum))
      = (List.range { Minefield.new w h with mines := c }.width).map (fun _ => 0) := by
    apply List.map_congr_left
    intro a _
    exact hin a
  rw [this]
  simp

theorem minesLoop_inv (mf0 : Minefield) (rng : Nat → Nat → Nat) (c : Nat)
    (hwf : wellFormed mf0) (hmc : mineCount mf0 = 0)
    (hall : ∀ x y, x < mf0.width → y < mf0.height →
      (getSpot mf0 x y).kind ≠ SpotKind.Mine)
    (hrng : ∀ i n, 0 < n → rng i n < n)
    (hcle : c ≤ mf0.width * mf0.height) :
    ∀ k, k ≤ c → minesInv mf0 k
      ((List.range k).foldl (minesIter rng mf0.width)
        (mf0, List.range (mf0.width * mf0.height))) := by
  have hw0 : 0 < mf0.width := hwf.2.2.1
  have hh0 : 0 < mf0.height := hwf.2.2.2.1
  intro k
  induction k with
  | zero =>
    intro _
    simp only [List.range_zero, List.foldl_nil]
    refine ⟨hwf, rfl, rfl, rfl, List.nodup_range _, by simp, ?_, hmc⟩
    intro idx hidx
    rw [List.mem_range] at hidx
    refine ⟨hidx, ?_⟩
    apply hall
    · exact Nat.mod_lt idx hw0
    · rw [Nat.div_lt_iff_lt_mul hw0, Nat.mul_comm]
      exact hidx
  | succ k ih =>
    intro hk1
    have hk : k ≤ c := by omega
    obtain ⟨Iwf, Iw, Ih, Im, Ind, Ilen, Imem, Icnt⟩ := ih hk
    rw [List.range_succ, List.foldl_append]
    set st := (List.range k).foldl (minesIter rng mf0.width)
      (mf0, List.range (mf0.width * mf0.height)) with hst
    show minesInv mf0 (k + 1) (List.foldl (minesIter rng mf0.width) st [k])
    have hlen0 : 0 < st.2.length := by
      rw [Ilen]
      omega
    have hidx_rm : rng k st.2.length < st.2.length := hrng k _ hlen0
    set v := (swapRemove st.2 (rng k st.2.length)).1 with hv
    set rem := (swapRemove st.2 (rng k st.2.length)).2 with hrem
    have hvmem : v ∈ st.2 := swapRemove_val hidx_rm
    have hvp := Imem v hvmem
    have hx : v % mf0.width < mf0.width := Nat.mod_lt v hw0
    have hy : v / mf0.width < mf0.height := by
      rw [Nat.div_lt_iff_lt_mul hw0, Nat.mul_comm]
      exact hvp.1
    have hxw : v % mf0.width < st.1.width := by rw [Iw]; exact hx
    have hyh : v / mf0.width < st.1.height := by rw [Ih]; exact hy
    obtain ⟨m, hkv⟩ : ∃ m, (getSpot st.1 (v % mf0.width) (v / mf0.width)).kind
        = SpotKind.Empty m := by
      rcases hkk : (getSpot st.1 (v % mf0.width) (v / mf0.width)).kind with _ | m
      · exact absurd hkk hvp.2
      · exact ⟨m, rfl⟩
    have hshape := place_mine_shape st.1 (v % mf0.width) (v / mf0.width)
    have hchar := getSpot_place_mine_empty Iwf hxw hyh hkv
    have hnd := swapRemove_nodup hidx_rm Ind
    have hstep : List.foldl (minesIter rng mf0.width) st [k]
        = (st.1.place_mine (v % mf0.width) (v / mf0.width), rem) := by
      simp only [List.foldl_cons, List.foldl_nil, minesIter]
    rw [hstep]
    refine ⟨hshape.2.2.2 Iwf, hshape.1.trans Iw, hshape.2.1.trans Ih,
      hshape.2.2.1.trans Im, hnd.1, ?_, ?_, ?_⟩
    · show rem.length = mf0.width * mf0.height - (k + 1)
      have hsl := swapRemove_length hidx_rm
      rw [← hrem] at hsl
      omega
    · intro idx hidx
      have hmem : idx ∈ st.2 := swapRemove_mem hidx_rm idx hidx
      have hip := Imem idx hmem
      refine ⟨hip.1, ?_⟩
      have hne : idx ≠ v := by
        intro heq
        rw [heq] at hidx
        exact hnd.2 hidx
      have hcellne : ¬(idx % mf0.width = v % mf0.width ∧ idx / mf0.width = v / mf0.width) := by
        rintro ⟨hm, hd⟩
        apply hne
        have h1 := Nat.div_add_mod idx mf0.width
        have h2 := Nat.div_add_mod v mf0.width
        rw [hm, hd] at h1
        omega
      rw [hchar (idx % mf0.width) (idx / mf0.width), if_neg hcellne]
      by_cases hmemb : (idx % mf0.width, idx / mf0.width)
          ∈ st.1.neighbors_coords (v % mf0.width) (v / mf0.width)
      · rw [if_pos hmemb]
        intro hbad
        exact hip.2 ((bumpSpot_mine_iff _).1 hbad)
      · rw [if_neg hmemb]
        exact hip.2
    · show mineCount (st.1.place_mine (v % mf0.width) (v / mf0.width)) = k + 1
      rw [mineCount_place_mine Iwf hxw hyh hkv, Icnt]

theorem wellFormed_mines_set (mf : Minefield) (c : Nat) :
    wellFormed { mf with mines := c } ↔ wellFormed mf := Iff.rfl

theorem with_mines_eq (mf : Minefield) (mines : Nat) (rng : Nat → Nat → Nat) :
    mf.with_mines mines rng
      = ((List.range (min mines (mf.width * mf.height))).foldl
          (minesIter rng mf.width)
          ({ mf with mines := min mines (mf.width * mf.height) },
            List.range (mf.width * mf.height))).1 := by
  simp only [Minefield.with_mines, Nat.min_def]

/-- Claim C2: building a field as new w h followed by with_mines
places exactly min(mine_count, width*height) mines: the resulting
field has that many Mine cells (necessarily at distinct coordinates)
and records that count in its mines field, and the placement loop
swap-removes exactly one index from the remaining-spots list per
iteration, so after every prefix of k iterations the list holds
width*height - k indices and the loop terminates after exactly the
clamped number of iterations for every valid random generator. -/
theorem C2_with_mines_count (w h mines : Nat) (rng : Nat → Nat → Nat)
    (hw : w ≤ 65535) (hh : h ≤ 65535) (hrng : ∀ i n, 0 < n → rng i n < n) :
    mineCount ((Minefield.new w h).with_mines mines rng)
      = min mines ((Minefield.new w h).width * (Minefield.new w h).height) ∧
    ((Minefield.new w h).with_mines mines rng).mines
      = min mines ((Minefield.new w h).width * (Minefield.new w h).height) ∧
    (∀ k, k ≤ min mines ((Minefield.new w h).width * (Minefield.new w h).height) →
      ((List.range k).foldl (minesIter rng (Minefield.new w h).width)
          ({ Minefield.new w h with
              mines := min mines ((Minefield.new w h).width * (Minefield.new w h).height) },
            List.range ((Minefield.new w h).width * (Minefield.new w h).height))).2.length
        = (Minefield.new w h).width * (Minefield.new w h).height - k) := by
  have hwf0 : wellFormed { Minefield.new w h with
      mines := min mines ((Minefield.new w h).width * (Minefield.new w h).height) } :=
    (wellFormed_mines_set _ _).2 (wellFormed_new hw hh)
  have hmc0 := mineCount_new w h
    (min mines ((Minefield.new w h).width * (Minefield.new w h).height))
  have hall : ∀ x y, x < ({ Minefield.new w h with
        mines := min mines ((Minefield.new w h).width * (Minefield.new w h).height) }).width →
      y < ({ Minefield.new w h with
        mines := min mines ((Minefield.new w h).width * (Minefield.new w h).height) }).height →
      (getSpot { Minefield.new w h with
        mines := min mines ((Minefield.new w h).width * (Minefield.new w h).height) } x y).kind
        ≠ SpotKind.Mine := by
    intro x y _ _
    rw [getSpot_mines_set, getSpot_new]
    intro hbad
    cases hbad
  have hinv := minesLoop_inv { Minefield.new w h with
      mines := min mines ((Minefield.new w h).width * (Minefield.new w h).height) }
    rng (min mines ((Minefield.new w h).width * (Minefield.new w h).height))
    hwf0 hmc0 hall hrng (Nat.min_le_right _ _)
  refine ⟨?_, ?_, ?_⟩
  · rw [with_mines_eq]
    exact (hinv _ (Nat.le_refl _)).2.2.2.2.2.2.2
  · rw [with_mines_eq]
    exact (hinv _ (Nat.le_refl _)).2.2.2.1
  · intro k hk
    exact (hinv k hk).2.2.2.2.2.1

/-- Claim C2 witness: with the constant-zero generator, a 3 x 4 field
asked for 2 mines ends with exactly 2 mine cells and a remaining list
of 10 indices after both iterations. -/
theorem C2_with_mines_count_witness :
    mineCount ((Minefield.new 3 4).with_mines 2 (fun _ _ => 0))
      = min 2 ((Minefield.new 3 4).width * (Minefield.new 3 4).height) ∧
    ((Minefield.new 3 4).with_mines 2 (fun _ _ => 0)).mines
      = min 2 ((Minefield.new 3 4).width * (Minefield.new 3 4).height) :=
  ⟨(C2_with_mines_count 3 4 2 (fun _ _ => 0) (by decide) (by decide)
      (fun _ _ hn => hn)).1,
   (C2_with_mines_count 3 4 2 (fun _ _ => 0) (by decide) (by decide)
      (fun _ _ hn => hn)).2.1⟩
